import Mathlib

/-!
Verification development for the regops core pipeline: a shallow embedding of
the rule engine (`regops/workflow/rule_engine.py`), the duration pickers of the
task compiler (`regops/workflow/instantiate.py`), the scheduler
(`regops/workflow/schedule.py`) and the critical-path analyzer
(`regops/workflow/critical_path.py`), followed by theorems settling the
specification claims.

Modelling conventions:
- pandas DataFrames become lists of records; a DataFrame cell that is NaN, the
  empty string, or not convertible by `float(...)` becomes `none : Option ℚ`
  (the Python code treats all three identically).
- Python floats become exact rationals `ℚ`.
- `datetime.date` values become day numbers `ℤ` (`date + timedelta(days=k)`
  becomes integer addition).
- Python dicts keyed by task code become functions `String → _` built by
  successive pointwise updates, with the dict's `.get(_, default)` default as
  the value outside the written keys.
- `networkx`: `DiGraph` node/edge insertion keeps first occurrences
  (`dedupKeepFirst`); `topological_sort`/`is_directed_acyclic_graph` are
  modelled together by Kahn's algorithm by generations (`topologicalSort`),
  returning `none` exactly when the graph has a directed cycle, which is how
  `is_directed_acyclic_graph` is defined in the library.  Within a
  generation, nodes are listed in node insertion order.
- `pandas.sort_values` on the score column is modelled as a stable descending
  sort (`sortByScoreDesc`).
-/

/-! ### Generic list helpers -/

/-- Helper for `dedupKeepFirst`: drop elements already seen, keeping first
occurrences. -/
def dedupSeen {α : Type} [DecidableEq α] (seen : List α) : List α → List α
  | [] => []
  | x :: xs =>
    if x ∈ seen then dedupSeen seen xs else x :: dedupSeen (x :: seen) xs

/-- Keep the first occurrence of each element, dropping later duplicates
(the behaviour of dict-key/`networkx` node and edge insertion). -/
def dedupKeepFirst {α : Type} [DecidableEq α] (l : List α) : List α :=
  dedupSeen [] l

theorem mem_dedupSeen {α : Type} [DecidableEq α] {a : α} :
    ∀ {l : List α} {seen : List α},
      a ∈ dedupSeen seen l ↔ a ∈ l ∧ a ∉ seen
  | [], seen => by simp [dedupSeen]
  | x :: xs, seen => by
    rw [dedupSeen]
    split
    · rename_i hx
      rw [mem_dedupSeen]
      constructor
      · rintro ⟨h1, h2⟩
        exact ⟨List.mem_cons_of_mem x h1, h2⟩
      · rintro ⟨h1, h2⟩
        rcases List.mem_cons.mp h1 with h' | h'
        · exact absurd (h' ▸ hx) h2
        · exact ⟨h', h2⟩
    · rename_i hx
      by_cases hax : a = x
      · subst hax
        simp [hx]
      · simp only [List.mem_cons, hax, false_or]
        rw [mem_dedupSeen]
        simp only [List.mem_cons, hax, false_or]

theorem mem_dedupKeepFirst {α : Type} [DecidableEq α] {a : α} {l : List α} :
    a ∈ dedupKeepFirst l ↔ a ∈ l := by
  unfold dedupKeepFirst
  rw [mem_dedupSeen]
  simp

theorem nodup_dedupSeen {α : Type} [DecidableEq α] :
    ∀ (l : List α) (seen : List α), (dedupSeen seen l).Nodup
  | [], seen => by simp [dedupSeen]
  | x :: xs, seen => by
    rw [dedupSeen]
    split
    · exact nodup_dedupSeen xs seen
    · refine List.nodup_cons.mpr ⟨?_, nodup_dedupSeen xs (x :: seen)⟩
      intro hx
      exact absurd (List.mem_cons_self x seen) (mem_dedupSeen.mp hx).2

theorem nodup_dedupKeepFirst {α : Type} [DecidableEq α] (l : List α) :
    (dedupKeepFirst l).Nodup :=
  nodup_dedupSeen l []

/-- The consecutive pairs of a list: `consecPairs [a,b,c] = [(a,b),(b,c)]`. -/
def consecPairs {α : Type} : List α → List (α × α)
  | [] => []
  | [_] => []
  | a :: b :: t => (a, b) :: consecPairs (b :: t)

/-- Does `p` occur as a contiguous sublist of the second argument? -/
def hasSubList (p : List Char) : List Char → Bool
  | [] => p.isEmpty
  | c :: cs => p.isPrefixOf (c :: cs) || hasSubList p cs

/-- Substring containment on strings, modelling Python's `in` operator. -/
def substrOf (p s : String) : Bool :=
  hasSubList p.toList s.toList

/-- Python's `round` (banker's rounding, half to even) on an exact rational. -/
def pyRound (q : ℚ) : ℤ :=
  let n := ⌊q⌋
  let frac := q - n
  if frac < 1/2 then n
  else if 1/2 < frac then n + 1
  else if n % 2 = 0 then n else n + 1

theorem pyRound_nonneg {q : ℚ} (h : 0 ≤ q) : 0 ≤ pyRound q := by
  have hfl : (0 : ℤ) ≤ ⌊q⌋ := Int.floor_nonneg.mpr h
  unfold pyRound
  dsimp only
  split
  · exact hfl
  · split
    · omega
    · split
      · exact hfl
      · omega

/-! ### Rule engine (`regops/workflow/rule_engine.py`) -/

/-- `ProjectProfile` from `rule_engine.py` (the free-form `meta` map, unused by
all core logic, is omitted). -/
structure ProjectProfile where
  project_id : String
  project_name : String
  plan_start_date : String
  classification : String
  environmental_regime : String
  project_type : String
  grid_interaction : String
  capacity_band : String
  regulatory_path : String
  location_constraint : String
deriving DecidableEq, Repr

/-- The `match` dict of a rule: each key maps to a list of accepted codes;
`none` models an absent key (`m.get(dim, ["ANY"])` then defaults to
`["ANY"]`). -/
structure MatchClause where
  classification : Option (List String)
  project_type : Option (List String)
  grid_interaction : Option (List String)
  capacity_band : Option (List String)
  regulatory_path : Option (List String)
  location_constraint : Option (List String)
  environmental_regime : Option (List String)
deriving DecidableEq, Repr

/-- The `apply` dict of a rule; absent or `None` task lists are modelled as
`[]` (the code reads `a.get("include_tasks", []) or []`). -/
structure ApplyClause where
  include_tasks : List String
  exclude_tasks : List String
deriving DecidableEq, Repr

/-- A raw applicability rule dict.  `rule_id = none` models an absent
`rule_id` key (`rule.get("rule_id", "UNKNOWN")`), `matchClause = none` models
an absent `match` key (`rule.get("match", {})`) and `applyClause = none` an
absent `apply` key. -/
structure Rule where
  rule_id : Option String
  matchClause : Option MatchClause
  applyClause : Option ApplyClause
deriving DecidableEq, Repr

/-- The all-absent `match` dict `{}`. -/
def emptyMatchClause : MatchClause :=
  ⟨none, none, none, none, none, none, none⟩

/-- The empty `apply` dict `{}`. -/
def emptyApplyClause : ApplyClause :=
  ⟨[], []⟩

/-- `_match_dim` from `rule_engine.py`. -/
def _match_dim (value : String) (allowed_values : List String) : Bool :=
  if "ANY" ∈ allowed_values then true
  else value ∈ allowed_values

/-- The per-rule match test from `evaluate_applicability` (the seven `ok &=`
conjuncts, in source order). -/
def ruleMatches (rule : Rule) (profile : ProjectProfile) : Bool :=
  let m := rule.matchClause.getD emptyMatchClause
  _match_dim profile.classification (m.classification.getD ["ANY"]) &&
  _match_dim profile.project_type (m.project_type.getD ["ANY"]) &&
  _match_dim profile.grid_interaction (m.grid_interaction.getD ["ANY"]) &&
  _match_dim profile.capacity_band (m.capacity_band.getD ["ANY"]) &&
  _match_dim profile.regulatory_path (m.regulatory_path.getD ["ANY"]) &&
  _match_dim profile.location_constraint (m.location_constraint.getD ["ANY"]) &&
  _match_dim profile.environmental_regime (m.environmental_regime.getD ["ANY"])

/-- The `rule_id` actually recorded for a matched rule. -/
def ruleIdOf (rule : Rule) : String :=
  rule.rule_id.getD "UNKNOWN"

/-- Result dict of `evaluate_applicability` (keys `matched_rules`, `include`,
`exclude`, `final_tasks`). -/
structure ApplicabilityResult where
  matched_rules : List String
  includes : List String
  excludes : List String
  final_tasks : List String
deriving DecidableEq, Repr

/-- One iteration of the rule loop of `evaluate_applicability`, acting on the
state `(included, excluded, matched_rules)`. -/
def evalStep (profile : ProjectProfile)
    (st : Finset String × Finset String × List String) (rule : Rule) :
    Finset String × Finset String × List String :=
  if ruleMatches rule profile then
    let a := rule.applyClause.getD emptyApplyClause
    (st.1 ∪ a.include_tasks.toFinset, st.2.1 ∪ a.exclude_tasks.toFinset,
      st.2.2 ++ [ruleIdOf rule])
  else st

/-- `evaluate_applicability` from `rule_engine.py`; Python `set`s become
`Finset String` and `sorted(list(s))` becomes `Finset.sort (· ≤ ·)`. -/
def evaluate_applicability (rules : List Rule) (profile : ProjectProfile) :
    ApplicabilityResult :=
  let st := rules.foldl (evalStep profile) (∅, ∅, [])
  { matched_rules := st.2.2
    includes := st.1.sort (· ≤ ·)
    excludes := st.2.1.sort (· ≤ ·)
    final_tasks := (st.1 \ st.2.1).sort (· ≤ ·) }

/-! ### Duration pickers (`regops/workflow/instantiate.py`) -/

/-- A row of the statutory-durations table.  `max_days = none` models a cell
that is NaN, the empty string, or not convertible by `float(...)` — the three
cases the picker loop skips identically. -/
structure StatutoryRow where
  task_code : String
  rule_scope : String
  max_days : Option ℚ
deriving DecidableEq, Repr

/-- A row of the practical-durations table, with the same `Option ℚ`
convention for unusable cells (the `_f` helper in the source). -/
structure PracticalRow where
  task_code : String
  rule_scope : String
  typical_days : Option ℚ
  p10_days : Option ℚ
  p90_days : Option ℚ
deriving DecidableEq, Repr

/-- The `score` closure inside `_pick_statutory_duration`. -/
def statScore (profile : ProjectProfile) (matched_rule_ids : List String)
    (s : String) : Nat :=
  (if substrOf "classification=" s then
    (if substrOf ("classification=" ++ profile.classification) s ||
        substrOf "classification=ANY" s then 3 else 0)
   else 0) +
  (if substrOf "environmental_regime=" s then
    (if substrOf ("environmental_regime=" ++ profile.environmental_regime) s ||
        substrOf "environmental_regime=ANY" s then 2 else 0)
   else 0) +
  (if s ∈ matched_rule_ids then 2 else 0)

/-- The `score` closure inside `_pick_practical_duration` (duplicated verbatim
in the source). -/
def pracScore (profile : ProjectProfile) (matched_rule_ids : List String)
    (s : String) : Nat :=
  (if substrOf "classification=" s then
    (if substrOf ("classification=" ++ profile.classification) s ||
        substrOf "classification=ANY" s then 3 else 0)
   else 0) +
  (if substrOf "environmental_regime=" s then
    (if substrOf ("environmental_regime=" ++ profile.environmental_regime) s ||
        substrOf "environmental_regime=ANY" s then 2 else 0)
   else 0) +
  (if s ∈ matched_rule_ids then 2 else 0)

/-- Insert `x` into a list after every element of strictly larger key and
before the rest (so equal keys keep `x` in front). -/
def insertDesc {α : Type} (key : α → Nat) (x : α) : List α → List α
  | [] => [x]
  | y :: ys => if key x < key y then y :: insertDesc key x ys else x :: y :: ys

/-- Stable descending sort by `key`, modelling
`rows.sort_values(["__score"], ascending=False)`. -/
def sortByScoreDesc {α : Type} (key : α → Nat) (l : List α) : List α :=
  l.foldr (insertDesc key) []

/-- `_pick_statutory_duration`: filter the table to the task, sort by score
descending, and return the first present numeric `max_days` (the `for` loop
with `continue` on unusable cells). -/
def _pick_statutory_duration (statutory : List StatutoryRow) (task_code : String)
    (profile : ProjectProfile) (matched_rule_ids : List String) : Option ℚ :=
  let rows := statutory.filter (fun r => r.task_code = task_code)
  if rows.isEmpty then none
  else
    let sorted := sortByScoreDesc
      (fun r => statScore profile matched_rule_ids r.rule_scope) rows
    sorted.findSome? (fun r => r.max_days)

/-- `_pick_practical_duration`: filter to the task, sort by score descending,
and take the triple from the single first row (`rows.iloc[0]`). -/
def _pick_practical_duration (practical : List PracticalRow) (task_code : String)
    (profile : ProjectProfile) (matched_rule_ids : List String) :
    Option ℚ × Option ℚ × Option ℚ :=
  let rows := practical.filter (fun r => r.task_code = task_code)
  if rows.isEmpty then (none, none, none)
  else
    match sortByScoreDesc
        (fun r => pracScore profile matched_rule_ids r.rule_scope) rows with
    | [] => (none, none, none)
    | r0 :: _ => (r0.typical_days, r0.p10_days, r0.p90_days)

/-! ### Topological sorting (modelling `networkx`)

`nx.is_directed_acyclic_graph` / `nx.topological_sort` are modelled together:
`topologicalSort` runs Kahn's algorithm by generations (as
`nx.topological_generations` does) and returns `none` exactly when a directed
cycle prevents a complete topological order. -/

/-- Does `v` still have an in-neighbour among `remaining`? -/
def hasInRem (edges : List (String × String)) (remaining : List String)
    (v : String) : Bool :=
  remaining.any (fun u => edges.contains (u, v))

/-- Kahn's algorithm by generations.  Each round removes every node with no
in-neighbour among the remaining nodes (one generation, in node insertion
order); if no node can be removed while some remain, the graph is cyclic. -/
def kahnAux (edges : List (String × String)) :
    Nat → List String → List String → Option (List String)
  | 0, acc, remaining => if remaining.isEmpty then some acc else none
  | n + 1, acc, remaining =>
    if (remaining.filter (fun v => !(hasInRem edges remaining v))).isEmpty then
      (if remaining.isEmpty then some acc else none)
    else
      kahnAux edges n
        (acc ++ remaining.filter (fun v => !(hasInRem edges remaining v)))
        (remaining.filter (hasInRem edges remaining))

/-- Topological sort of the nodes along the edges; `none` iff cyclic. -/
def topologicalSort (nodes : List String) (edges : List (String × String)) :
    Option (List String) :=
  kahnAux edges nodes.length [] nodes

/-! ### Scheduler (`regops/workflow/schedule.py`) -/

/-- `CompiledTask` from `instantiate.py`. -/
structure CompiledTask where
  task_code : String
  task_name : String
  phase_code : String
  description_md : String
  hard_legal_blocker : Bool
  parallelizable : Bool
  default_order : Int
  legal_basis : String
  actor_role : Option String
  competent_authority : Option String
  statutory_max_days : Option ℚ
  practical_typical_days : Option ℚ
  practical_p10_days : Option ℚ
  practical_p90_days : Option ℚ
  matched_rule_ids : List String
deriving DecidableEq, Repr

/-- A row of the dependencies table.  `lag_days = none` models a NaN or
empty-string lag cell (`0.0 if pd.isna(lag) or lag == "" else float(lag)`). -/
structure DepRow where
  predecessor_task_code : String
  successor_task_code : String
  dependency_type : String
  lag_days : Option ℚ
deriving DecidableEq, Repr

/-- `PlannedTaskDates` from `schedule.py`, with dates as day numbers. -/
structure PlannedTaskDates where
  task_code : String
  planned_start : ℤ
  planned_finish : ℤ
  duration_days : ℚ
deriving DecidableEq, Repr

/-- The `get_dur` closure of `compute_schedule`. -/
def get_dur (duration_mode : String) (fallback_to_practical : Bool)
    (t : CompiledTask) : ℚ :=
  if duration_mode = "statutory" then
    match t.statutory_max_days with
    | some v => v
    | none =>
      match t.practical_typical_days with
      | some p => if fallback_to_practical then p else 0
      | none => 0
  else
    match t.practical_typical_days with
    | some p => p
    | none =>
      match t.statutory_max_days with
      | some v => v
      | none => 0

/-- The `durs` dict as a total function: `task_map` keeps the last task with a
given code (dict-comprehension overwrite) and `.get(_, 0.0)` yields `0`
outside the keys. -/
def tasksDurs (compiled_tasks : List CompiledTask) (duration_mode : String)
    (fallback_to_practical : Bool) : String → ℚ :=
  fun tc =>
    match compiled_tasks.reverse.find? (fun t => t.task_code = tc) with
    | some t => get_dur duration_mode fallback_to_practical t
    | none => 0

/-- The dependency rows restricted to the selected task set
(`dependencies[pred.isin(task_codes) & succ.isin(task_codes)]`). -/
def inducedRels (task_codes : List String) (dependencies : List DepRow) :
    List DepRow :=
  dependencies.filter (fun r =>
    task_codes.contains r.predecessor_task_code &&
    task_codes.contains r.successor_task_code)

/-- The edge pairs inserted into the `networkx` graph (first insertion wins). -/
def inducedEdges (task_codes : List String) (dependencies : List DepRow) :
    List (String × String) :=
  dedupKeepFirst ((inducedRels task_codes dependencies).map
    (fun r => (r.predecessor_task_code, r.successor_task_code)))

/-- The constraint contributed by one incoming dependency row `r` to task
`tc` (the `if dep_type == ...` chain; any unrecognized type falls through to
the FS formula). -/
def depCandidate (starts durs : String → ℚ) (tc : String) (r : DepRow) : ℚ :=
  let lag := r.lag_days.getD 0
  let pre_start := starts r.predecessor_task_code
  let pre_finish := pre_start + durs r.predecessor_task_code
  if r.dependency_type = "FS" then pre_finish + lag
  else if r.dependency_type = "SS" then pre_start + lag
  else if r.dependency_type = "FF" then pre_finish + lag - durs tc
  else pre_finish + lag

/-- The inner loop over `incoming` rows: fold the candidates over the current
best, starting from the initialized `starts[tc]`. -/
def applyIncoming (rels : List DepRow) (durs : String → ℚ)
    (starts : String → ℚ) (tc : String) : ℚ :=
  (rels.filter (fun r => r.successor_task_code = tc)).foldl
    (fun best r =>
      if depCandidate starts durs tc r > best then depCandidate starts durs tc r
      else best)
    (starts tc)

/-- One iteration of the topological-order loop: write `starts[tc] = best`. -/
def schedStep (rels : List DepRow) (durs : String → ℚ)
    (starts : String → ℚ) (tc : String) : String → ℚ :=
  fun s => if s = tc then applyIncoming rels durs starts tc else starts s

/-- The full forward pass: all starts initialized to `0.0`, then one pass in
topological order. -/
def computeStarts (rels : List DepRow) (durs : String → ℚ)
    (order : List String) : String → ℚ :=
  order.foldl (schedStep rels durs) (fun _ => 0)

/-- The task-code list of the scheduler: `list(task_map.keys())`, i.e. the
compiled tasks' codes with first occurrences kept. -/
def selectedCodes (compiled_tasks : List CompiledTask) : List String :=
  dedupKeepFirst (compiled_tasks.map (fun t => t.task_code))

/-- The final `planned` dict of `compute_schedule`, built over `order`. -/
def plannedOf (compiled_tasks : List CompiledTask) (dependencies : List DepRow)
    (plan_start_date : ℤ) (duration_mode : String)
    (fallback_to_practical : Bool) (order : List String) :
    List PlannedTaskDates :=
  order.map (fun tc =>
    { task_code := tc
      planned_start := plan_start_date + pyRound
        (computeStarts (inducedRels (selectedCodes compiled_tasks) dependencies)
          (tasksDurs compiled_tasks duration_mode fallback_to_practical) order tc)
      planned_finish := plan_start_date + pyRound
        (computeStarts (inducedRels (selectedCodes compiled_tasks) dependencies)
          (tasksDurs compiled_tasks duration_mode fallback_to_practical) order tc)
        + pyRound (tasksDurs compiled_tasks duration_mode fallback_to_practical tc)
      duration_days := tasksDurs compiled_tasks duration_mode fallback_to_practical tc })

/-- `compute_schedule` from `schedule.py`.  `plan_start_date` is the parsed
plan start date as a day number; the result dict (insertion order = `order`)
becomes a list. -/
def compute_schedule (compiled_tasks : List CompiledTask)
    (dependencies : List DepRow) (plan_start_date : ℤ)
    (duration_mode : String) (fallback_to_practical : Bool) :
    Except String (List PlannedTaskDates) :=
  match topologicalSort (selectedCodes compiled_tasks)
      (inducedEdges (selectedCodes compiled_tasks) dependencies) with
  | none => .error "Dependency graph has cycles among selected tasks."
  | some order =>
    .ok (plannedOf compiled_tasks dependencies plan_start_date duration_mode
      fallback_to_practical order)

/-! ### Critical path analyzer (`regops/workflow/critical_path.py`) -/

/-- `CriticalPathResult`; the `longest_path_len_by_task` dict becomes an
association list in topological (insertion) order. -/
structure CriticalPathResult where
  critical_path : List String
  total_duration : ℚ
  longest_path_len_by_task : List (String × ℚ)
deriving DecidableEq, Repr

/-- Lookup in the `durations` dict with default `0.0`
(`durations.get(tc, 0.0)`). -/
def durGet (durations : List (String × ℚ)) (tc : String) : ℚ :=
  match durations.find? (fun p => p.1 = tc) with
  | some p => p.2
  | none => 0

/-- `g.successors(tc)`: adjacency in edge insertion order. -/
def successorsOf (edges : List (String × String)) (tc : String) : List String :=
  (edges.filter (fun e => e.1 = tc)).map (fun e => e.2)

/-- One iteration of the relaxation loop: for each successor of `tc`, raise
its distance and record the predecessor pointer on strict improvement. -/
def cpStep (edges : List (String × String)) (durations : List (String × ℚ))
    (dp : (String → ℚ) × (String → Option String)) (tc : String) :
    (String → ℚ) × (String → Option String) :=
  (successorsOf edges tc).foldl
    (fun dp suc =>
      let cand := dp.1 tc + durGet durations suc
      if cand > dp.1 suc then
        (fun v => if v = suc then cand else dp.1 v,
         fun v => if v = suc then some tc else dp.2 v)
      else dp)
    dp

/-- The full relaxation pass: `dist` initialized to each node's own duration,
`pred` to `None`, then one pass in topological order. -/
def cpFold (edges : List (String × String)) (durations : List (String × ℚ))
    (topo : List String) : (String → ℚ) × (String → Option String) :=
  topo.foldl (cpStep edges durations)
    (fun v => durGet durations v, fun _ => none)

/-- The `while cur is not None` reconstruction loop, with enough fuel to
exhaust any predecessor chain (pointers strictly decrease the topological
position, so `fuel = |topo|` never runs out). -/
def reconstructPath (pr : String → Option String) : Nat → String → List String
  | 0, cur => [cur]
  | n + 1, cur =>
    match pr cur with
    | none => [cur]
    | some p => cur :: reconstructPath pr n p

/-- `max(topo, key=lambda x: dist.get(x, 0.0))` on the nonempty list
`h :: t`: Python's `max` keeps the first maximal element (strict `>` to
replace the current best). -/
def cpEndNode (dist : String → ℚ) (h : String) (t : List String) : String :=
  t.foldl (fun best x => if dist x > dist best then x else best) h

/-- The `.ok` payload of `critical_path` for a nonempty topological order
`topo = h :: t`. -/
def cpResult (task_codes : List String) (dependencies : List DepRow)
    (durations : List (String × ℚ)) (topo : List String) (h : String)
    (t : List String) : CriticalPathResult :=
  { critical_path :=
      (reconstructPath (cpFold (inducedEdges task_codes dependencies) durations topo).2
        (dedupKeepFirst task_codes).length
        (cpEndNode (cpFold (inducedEdges task_codes dependencies) durations topo).1 h t)).reverse
    total_duration := (cpFold (inducedEdges task_codes dependencies) durations topo).1
      (cpEndNode (cpFold (inducedEdges task_codes dependencies) durations topo).1 h t)
    longest_path_len_by_task := topo.map (fun tc =>
      (tc, (cpFold (inducedEdges task_codes dependencies) durations topo).1 tc)) }

/-- `critical_path` from `critical_path.py`.  `max(topo, key=...)` keeps the
first maximal element and raises `ValueError` on an empty sequence. -/
def critical_path (task_codes : List String) (dependencies : List DepRow)
    (durations : List (String × ℚ)) : Except String CriticalPathResult :=
  match topologicalSort (dedupKeepFirst task_codes)
      (inducedEdges task_codes dependencies) with
  | none => .error "Graph has cycles; critical path undefined."
  | some topo =>
    match topo with
    | [] => .error "max() arg is an empty sequence"
    | h :: t => .ok (cpResult task_codes dependencies durations topo h t)

/-! ### Claim C8: rule matching -/

/-- Spec-side reading of one dimension clause: the profile's value is
contained in the clause or the clause contains the wildcard `ANY`; an absent
clause is treated as `ANY` (always satisfied). -/
def specDimHolds (value : String) (clause : Option (List String)) : Prop :=
  match clause with
  | none => True
  | some l => value ∈ l ∨ "ANY" ∈ l

/-- The seven dimension clauses of a match dict, in source order. -/
def clausesOf (m : MatchClause) : List (Option (List String)) :=
  [m.classification, m.project_type, m.grid_interaction, m.capacity_band,
   m.regulatory_path, m.location_constraint, m.environmental_regime]

theorem match_dim_iff (v : String) (c : Option (List String)) :
    _match_dim v (c.getD ["ANY"]) = true ↔ specDimHolds v c := by
  cases c with
  | none => simp [_match_dim, specDimHolds]
  | some l =>
    simp only [Option.getD, _match_dim, specDimHolds]
    by_cases h : "ANY" ∈ l <;> simp [h]

/-- C8: a rule matches a profile iff for every one of the seven dimensions the
profile's value is contained in that dimension's clause or the clause contains
the wildcard `ANY`, with an absent clause treated as `ANY`; consequently a
rule whose present clauses all contain `ANY` (in particular one whose match
block is absent) matches every profile. -/
theorem claim_C8_rule_matching (rule : Rule) (profile : ProjectProfile) :
    (ruleMatches rule profile = true ↔
      (specDimHolds profile.classification
          (rule.matchClause.getD emptyMatchClause).classification ∧
       specDimHolds profile.project_type
          (rule.matchClause.getD emptyMatchClause).project_type ∧
       specDimHolds profile.grid_interaction
          (rule.matchClause.getD emptyMatchClause).grid_interaction ∧
       specDimHolds profile.capacity_band
          (rule.matchClause.getD emptyMatchClause).capacity_band ∧
       specDimHolds profile.regulatory_path
          (rule.matchClause.getD emptyMatchClause).regulatory_path ∧
       specDimHolds profile.location_constraint
          (rule.matchClause.getD emptyMatchClause).location_constraint ∧
       specDimHolds profile.environmental_regime
          (rule.matchClause.getD emptyMatchClause).environmental_regime)) ∧
    ((∀ c ∈ clausesOf (rule.matchClause.getD emptyMatchClause),
        ∀ l, c = some l → "ANY" ∈ l) →
      ruleMatches rule profile = true) := by
  constructor
  · unfold ruleMatches
    simp only [Bool.and_eq_true]
    rw [match_dim_iff, match_dim_iff, match_dim_iff, match_dim_iff,
      match_dim_iff, match_dim_iff, match_dim_iff]
    tauto
  · intro hANY
    unfold ruleMatches
    simp only [Bool.and_eq_true]
    rw [match_dim_iff, match_dim_iff, match_dim_iff, match_dim_iff,
      match_dim_iff, match_dim_iff, match_dim_iff]
    have hdim : ∀ v (c : Option (List String)),
        c ∈ clausesOf (rule.matchClause.getD emptyMatchClause) →
        specDimHolds v c := by
      intro v c hc
      cases c with
      | none => trivial
      | some l => exact Or.inr (hANY _ hc l rfl)
    refine ⟨⟨⟨⟨⟨⟨?_, ?_⟩, ?_⟩, ?_⟩, ?_⟩, ?_⟩, ?_⟩ <;>
      (apply hdim; simp [clausesOf])

/-- Witness for C8: a rule whose `match` block is absent matches a concrete
profile, via the theorem. -/
theorem claim_C8_witness :
    ruleMatches ⟨some "R1", none, none⟩
      ⟨"P1", "N", "2024-01-01", "A", "B", "C", "D", "E", "F", "G"⟩ = true :=
  (claim_C8_rule_matching ⟨some "R1", none, none⟩
      ⟨"P1", "N", "2024-01-01", "A", "B", "C", "D", "E", "F", "G"⟩).2
    (by intro c hc l hl; simp [clausesOf, emptyMatchClause] at hc; simp [hc] at hl)

/-! ### Claim C7: statutory duration mode -/

/-- C7: in statutory mode, a defined `statutory_max_days` is used; otherwise
the practical typical duration is used when `fallback_to_practical` is set;
otherwise the duration is `0`. -/
theorem claim_C7_statutory_mode (fb : Bool) (t : CompiledTask) :
    (∀ v : ℚ, t.statutory_max_days = some v → get_dur "statutory" fb t = v) ∧
    (t.statutory_max_days = none → fb = true →
      ∀ p : ℚ, t.practical_typical_days = some p → get_dur "statutory" fb t = p) ∧
    (t.statutory_max_days = none → t.practical_typical_days = none →
      get_dur "statutory" fb t = 0) ∧
    (t.statutory_max_days = none → fb = false → get_dur "statutory" fb t = 0) := by
  refine ⟨?_, ?_, ?_, ?_⟩
  · intro v hv; simp [get_dur, hv]
  · intro hs hfb p hp; simp [get_dur, hs, hp, hfb]
  · intro hs hp; simp [get_dur, hs, hp]
  · intro hs hfb; subst hfb; cases hp : t.practical_typical_days <;>
      simp [get_dur, hs, hp]

/-- Witness for C7: a concrete task with undefined statutory duration and
practical typical 4 gets duration 4 under fallback, via the theorem. -/
theorem claim_C7_witness :
    get_dur "statutory" true
      { task_code := "A", task_name := "A", phase_code := "P",
        description_md := "", hard_legal_blocker := false,
        parallelizable := true, default_order := 0, legal_basis := "",
        actor_role := none, competent_authority := none,
        statutory_max_days := none, practical_typical_days := some 4,
        practical_p10_days := none, practical_p90_days := none,
        matched_rule_ids := [] } = 4 :=
  (claim_C7_statutory_mode true _).2.1 rfl rfl 4 rfl

/-! ### Claim C4: final tasks as a set difference, invariant under rule order -/

/-- The include tasks of a rule, as a finite set. -/
def includeSet (r : Rule) : Finset String :=
  (r.applyClause.getD emptyApplyClause).include_tasks.toFinset

/-- The exclude tasks of a rule, as a finite set. -/
def excludeSet (r : Rule) : Finset String :=
  (r.applyClause.getD emptyApplyClause).exclude_tasks.toFinset

/-- `∪ matched include_tasks`, written directly as a union over the matched
rules. -/
def includeUnion (rules : List Rule) (profile : ProjectProfile) : Finset String :=
  (rules.filter (fun r => ruleMatches r profile)).foldr
    (fun r s => includeSet r ∪ s) ∅

/-- `∪ matched exclude_tasks`. -/
def excludeUnion (rules : List Rule) (profile : ProjectProfile) : Finset String :=
  (rules.filter (fun r => ruleMatches r profile)).foldr
    (fun r s => excludeSet r ∪ s) ∅

theorem mem_includeUnion {rules : List Rule} {profile : ProjectProfile}
    {x : String} :
    x ∈ includeUnion rules profile ↔
      ∃ r ∈ rules, ruleMatches r profile = true ∧ x ∈ includeSet r := by
  unfold includeUnion
  induction rules with
  | nil => simp
  | cons r rs ih =>
    by_cases h : ruleMatches r profile = true <;>
      (simp [List.filter_cons, h, ih]; try tauto)

theorem mem_excludeUnion {rules : List Rule} {profile : ProjectProfile}
    {x : String} :
    x ∈ excludeUnion rules profile ↔
      ∃ r ∈ rules, ruleMatches r profile = true ∧ x ∈ excludeSet r := by
  unfold excludeUnion
  induction rules with
  | nil => simp
  | cons r rs ih =>
    by_cases h : ruleMatches r profile = true <;>
      (simp [List.filter_cons, h, ih]; try tauto)

theorem evalFold_fst_mem (profile : ProjectProfile) (rules : List Rule)
    (st : Finset String × Finset String × List String) (x : String) :
    x ∈ (rules.foldl (evalStep profile) st).1 ↔
      x ∈ st.1 ∨ ∃ r ∈ rules, ruleMatches r profile = true ∧ x ∈ includeSet r := by
  induction rules generalizing st with
  | nil => simp
  | cons r rs ih =>
    rw [List.foldl_cons, ih]
    unfold evalStep
    by_cases h : ruleMatches r profile = true <;>
      (simp [h, includeSet]; try tauto)

theorem evalFold_snd_fst_mem (profile : ProjectProfile) (rules : List Rule)
    (st : Finset String × Finset String × List String) (x : String) :
    x ∈ (rules.foldl (evalStep profile) st).2.1 ↔
      x ∈ st.2.1 ∨ ∃ r ∈ rules, ruleMatches r profile = true ∧ x ∈ excludeSet r := by
  induction rules generalizing st with
  | nil => simp
  | cons r rs ih =>
    rw [List.foldl_cons, ih]
    unfold evalStep
    by_cases h : ruleMatches r profile = true <;>
      (simp [h, excludeSet]; try tauto)

theorem evalFold_snd_snd (profile : ProjectProfile) (rules : List Rule)
    (st : Finset String × Finset String × List String) :
    (rules.foldl (evalStep profile) st).2.2 =
      st.2.2 ++ (rules.filter (fun r => ruleMatches r profile)).map ruleIdOf := by
  induction rules generalizing st with
  | nil => simp
  | cons r rs ih =>
    rw [List.foldl_cons, ih]
    unfold evalStep
    by_cases h : ruleMatches r profile = true <;>
      simp [List.filter_cons, h]

theorem evalFold_fst_eq (profile : ProjectProfile) (rules : List Rule) :
    (rules.foldl (evalStep profile) (∅, ∅, [])).1 = includeUnion rules profile := by
  apply Finset.ext
  intro x
  rw [evalFold_fst_mem, mem_includeUnion]
  simp

theorem evalFold_snd_fst_eq (profile : ProjectProfile) (rules : List Rule) :
    (rules.foldl (evalStep profile) (∅, ∅, [])).2.1 = excludeUnion rules profile := by
  apply Finset.ext
  intro x
  rw [evalFold_snd_fst_mem, mem_excludeUnion]
  simp

theorem final_tasks_eq (rules : List Rule) (profile : ProjectProfile) :
    (evaluate_applicability rules profile).final_tasks =
      ((includeUnion rules profile) \ (excludeUnion rules profile)).sort (· ≤ ·) := by
  show ((rules.foldl (evalStep profile) (∅, ∅, [])).1 \
      (rules.foldl (evalStep profile) (∅, ∅, [])).2.1).sort (· ≤ ·) = _
  rw [evalFold_fst_eq, evalFold_snd_fst_eq]

/-- C4: `final_tasks` is the sorted set difference of the union of matched
includes and the union of matched excludes, and is invariant under any
permutation of the rule list, while `matched_rules` follows the (permuted)
input order. -/
theorem claim_C4_final_tasks_perm_invariant (rules rules' : List Rule)
    (profile : ProjectProfile) (hperm : rules.Perm rules') :
    (evaluate_applicability rules profile).final_tasks =
      ((includeUnion rules profile) \ (excludeUnion rules profile)).sort (· ≤ ·) ∧
    (evaluate_applicability rules' profile).final_tasks =
      (evaluate_applicability rules profile).final_tasks ∧
    (evaluate_applicability rules' profile).matched_rules =
      (rules'.filter (fun r => ruleMatches r profile)).map ruleIdOf := by
  have hinc : includeUnion rules' profile = includeUnion rules profile := by
    apply Finset.ext
    intro x
    rw [mem_includeUnion, mem_includeUnion]
    constructor <;> rintro ⟨r, hr, h⟩
    · exact ⟨r, hperm.mem_iff.mpr hr, h⟩
    · exact ⟨r, hperm.mem_iff.mp hr, h⟩
  have hexc : excludeUnion rules' profile = excludeUnion rules profile := by
    apply Finset.ext
    intro x
    rw [mem_excludeUnion, mem_excludeUnion]
    constructor <;> rintro ⟨r, hr, h⟩
    · exact ⟨r, hperm.mem_iff.mpr hr, h⟩
    · exact ⟨r, hperm.mem_iff.mp hr, h⟩
  refine ⟨final_tasks_eq rules profile, ?_, ?_⟩
  · rw [final_tasks_eq rules' profile, final_tasks_eq rules profile, hinc, hexc]
  · show (rules'.foldl (evalStep profile) (∅, ∅, [])).2.2 = _
    rw [evalFold_snd_snd]
    rfl

/-- Witness for C4 at a concrete pair of permuted rule lists. -/
theorem claim_C4_witness :
    (evaluate_applicability
        [⟨some "R2", none, some ⟨[], ["T1"]⟩⟩, ⟨some "R1", none, some ⟨["T1", "T2"], []⟩⟩]
        ⟨"P1", "N", "D", "A", "B", "C", "D", "E", "F", "G"⟩).final_tasks =
      (evaluate_applicability
        [⟨some "R1", none, some ⟨["T1", "T2"], []⟩⟩, ⟨some "R2", none, some ⟨[], ["T1"]⟩⟩]
        ⟨"P1", "N", "D", "A", "B", "C", "D", "E", "F", "G"⟩).final_tasks :=
  (claim_C4_final_tasks_perm_invariant
    [⟨some "R1", none, some ⟨["T1", "T2"], []⟩⟩, ⟨some "R2", none, some ⟨[], ["T1"]⟩⟩]
    [⟨some "R2", none, some ⟨[], ["T1"]⟩⟩, ⟨some "R1", none, some ⟨["T1", "T2"], []⟩⟩]
    ⟨"P1", "N", "D", "A", "B", "C", "D", "E", "F", "G"⟩
    (List.Perm.swap _ _ [])).2.1

/-! ### Claim C1: duration selection -/

theorem mem_insertDesc {α : Type} (key : α → Nat) (x z : α) :
    ∀ (l : List α), z ∈ insertDesc key x l ↔ z = x ∨ z ∈ l
  | [] => by simp [insertDesc]
  | y :: ys => by
    rw [insertDesc]
    split
    · rw [List.mem_cons, mem_insertDesc key x z ys]
      simp only [List.mem_cons]
      tauto
    · simp only [List.mem_cons]

theorem insertDesc_pairwise {α : Type} (key : α → Nat) (x : α) :
    ∀ {l : List α}, l.Pairwise (fun a b => key b ≤ key a) →
      (insertDesc key x l).Pairwise (fun a b => key b ≤ key a)
  | [], _ => by simp [insertDesc]
  | y :: ys, h => by
    rw [insertDesc]
    rcases List.pairwise_cons.mp h with ⟨hy, hys⟩
    split
    · rename_i hlt
      refine List.pairwise_cons.mpr ⟨?_, insertDesc_pairwise key x hys⟩
      intro z hz
      rcases (mem_insertDesc key x z ys).mp hz with hzx | hzy
      · subst hzx; exact Nat.le_of_lt hlt
      · exact hy z hzy
    · rename_i hge
      refine List.pairwise_cons.mpr ⟨?_, h⟩
      intro z hz
      rcases List.mem_cons.mp hz with hzy | hzys
      · subst hzy; exact Nat.le_of_not_lt hge
      · exact Nat.le_trans (hy z hzys) (Nat.le_of_not_lt hge)

theorem sortByScoreDesc_pairwise {α : Type} (key : α → Nat) (l : List α) :
    (sortByScoreDesc key l).Pairwise (fun a b => key b ≤ key a) := by
  induction l with
  | nil => simp [sortByScoreDesc]
  | cons x xs ih => exact insertDesc_pairwise key x ih

theorem insertDesc_filter {α : Type} (key : α → Nat) (x : α) (k : Nat) :
    ∀ (l : List α),
      (insertDesc key x l).filter (fun r => key r = k) =
        if key x = k then x :: l.filter (fun r => key r = k)
        else l.filter (fun r => key r = k)
  | [] => by
    simp only [insertDesc, List.filter_cons, List.filter_nil]
    split <;> simp_all
  | y :: ys => by
    rw [insertDesc]
    split
    · rename_i hlt
      rw [List.filter_cons, List.filter_cons]
      by_cases hyk : key y = k
      · have hxk : ¬ key x = k := by omega
        rw [insertDesc_filter key x k ys]
        simp [hyk, hxk]
      · rw [insertDesc_filter key x k ys]
        simp [hyk]
    · rw [List.filter_cons]
      by_cases hxk : key x = k <;> simp [hxk, List.filter_cons]

theorem sortByScoreDesc_filter {α : Type} (key : α → Nat) (l : List α) (k : Nat) :
    (sortByScoreDesc key l).filter (fun r => key r = k) =
      l.filter (fun r => key r = k) := by
  induction l with
  | nil => simp [sortByScoreDesc]
  | cons x xs ih =>
    show (insertDesc key x (sortByScoreDesc key xs)).filter _ = _
    rw [insertDesc_filter, List.filter_cons, ih]
    by_cases hxk : key x = k <;> simp [hxk]

/-- C1 counterexample: in the practical table, a profile-specific row with no
numeric typical value outranks (score 3 vs 0) a generic row with a numeric
typical value; the picker returns the triple of the single highest-scoring
row, hence all-undefined, instead of falling back to the numeric
lower-scoring row as the claim states. -/
theorem claim_C1_counterexample :
    _pick_practical_duration
        [⟨"T1", "classification=ALPHA", none, none, none⟩,
         ⟨"T1", "", some 5, some 4, some 6⟩] "T1"
        ⟨"P1", "N", "2024-01-01", "ALPHA", "REG", "PT", "GI", "CB", "RP", "LC"⟩
        [] = (none, none, none) ∧
    pracScore ⟨"P1", "N", "2024-01-01", "ALPHA", "REG", "PT", "GI", "CB", "RP", "LC"⟩
        [] "classification=ALPHA" = 3 ∧
    pracScore ⟨"P1", "N", "2024-01-01", "ALPHA", "REG", "PT", "GI", "CB", "RP", "LC"⟩
        [] "" = 0 ∧
    (some (5 : ℚ), some (4 : ℚ), some (6 : ℚ)) ≠
      ((none : Option ℚ), (none : Option ℚ), (none : Option ℚ)) := by
  refine ⟨by decide, by decide, by decide, by decide⟩

/-- C1 amended: both tables are scored identically (+3 classification, +2
environmental regime, +2 literal matched rule id) and sorted by score
descending with ties keeping table order; but the selection differs: the
statutory picker returns the first present numeric `max_days` along the
sorted rows, while the practical picker returns the triple of the single
highest-scoring row even when its values are not numeric (no fallback to a
lower-scoring numeric row). -/
theorem claim_C1_amended_duration_selection (stat : List StatutoryRow)
    (prac : List PracticalRow) (tc : String) (profile : ProjectProfile)
    (mrids : List String) :
    (∀ s, statScore profile mrids s = pracScore profile mrids s) ∧
    ((sortByScoreDesc (fun r => statScore profile mrids r.rule_scope)
        (stat.filter (fun r => r.task_code = tc))).Pairwise
        (fun a b => statScore profile mrids b.rule_scope ≤
          statScore profile mrids a.rule_scope) ∧
     (∀ k, (sortByScoreDesc (fun r => statScore profile mrids r.rule_scope)
          (stat.filter (fun r => r.task_code = tc))).filter
          (fun r => statScore profile mrids r.rule_scope = k) =
        (stat.filter (fun r => r.task_code = tc)).filter
          (fun r => statScore profile mrids r.rule_scope = k)) ∧
     _pick_statutory_duration stat tc profile mrids =
       (sortByScoreDesc (fun r => statScore profile mrids r.rule_scope)
         (stat.filter (fun r => r.task_code = tc))).findSome?
         (fun r => r.max_days)) ∧
    ((sortByScoreDesc (fun r => pracScore profile mrids r.rule_scope)
        (prac.filter (fun r => r.task_code = tc))).Pairwise
        (fun a b => pracScore profile mrids b.rule_scope ≤
          pracScore profile mrids a.rule_scope) ∧
     (∀ k, (sortByScoreDesc (fun r => pracScore profile mrids r.rule_scope)
          (prac.filter (fun r => r.task_code = tc))).filter
          (fun r => pracScore profile mrids r.rule_scope = k) =
        (prac.filter (fun r => r.task_code = tc)).filter
          (fun r => pracScore profile mrids r.rule_scope = k)) ∧
     _pick_practical_duration prac tc profile mrids =
       (match sortByScoreDesc (fun r => pracScore profile mrids r.rule_scope)
           (prac.filter (fun r => r.task_code = tc)) with
        | [] => (none, none, none)
        | r0 :: _ => (r0.typical_days, r0.p10_days, r0.p90_days))) := by
  refine ⟨fun s => rfl, ⟨sortByScoreDesc_pairwise _ _, sortByScoreDesc_filter _ _, ?_⟩,
    ⟨sortByScoreDesc_pairwise _ _, sortByScoreDesc_filter _ _, ?_⟩⟩
  · unfold _pick_statutory_duration
    by_cases h : (stat.filter (fun r => r.task_code = tc)).isEmpty
    · rw [if_pos h]
      rw [List.isEmpty_iff] at h
      rw [h]
      rfl
    · rw [if_neg h]
  · unfold _pick_practical_duration
    by_cases h : (prac.filter (fun r => r.task_code = tc)).isEmpty
    · rw [if_pos h]
      rw [List.isEmpty_iff] at h
      rw [h]
      rfl
    · rw [if_neg h]

/-! ### Correctness of the topological sort -/

theorem kahnAux_perm (edges : List (String × String)) :
    ∀ (n : Nat) (acc rem L : List String),
      kahnAux edges n acc rem = some L → L.Perm (acc ++ rem)
  | 0, acc, rem, L => by
    intro h
    rw [kahnAux] at h
    split at h
    · rename_i hemp
      rw [List.isEmpty_iff] at hemp
      cases h
      simp [hemp]
    · exact absurd h (by simp)
  | n + 1, acc, rem, L => by
    intro h
    rw [kahnAux] at h
    split at h
    · split at h
      · rename_i hemp
        rw [List.isEmpty_iff] at hemp
        cases h
        simp [hemp]
      · exact absurd h (by simp)
    · have ih := kahnAux_perm edges n
        (acc ++ rem.filter (fun v => !(hasInRem edges rem v)))
        (rem.filter (hasInRem edges rem)) L h
      refine ih.trans ?_
      rw [List.append_assoc]
      refine List.Perm.append_left acc ?_
      exact List.perm_append_comm.trans (List.filter_append_perm _ rem)

theorem kahnAux_forward (edges : List (String × String)) :
    ∀ (n : Nat) (acc rem L : List String),
      kahnAux edges n acc rem = some L →
      (∀ u v, (u, v) ∈ edges → v ∈ acc → List.Sublist [u, v] acc) →
      (∀ u v, (u, v) ∈ edges → u ∈ acc ∨ u ∈ rem) →
      (∀ u v, (u, v) ∈ edges → v ∈ acc ∨ v ∈ rem) →
      ∀ u v, (u, v) ∈ edges → List.Sublist [u, v] L
  | 0, acc, rem, L => by
    intro h Hacc Hclu Hclv u v huv
    rw [kahnAux] at h
    split at h
    · rename_i hemp
      rw [List.isEmpty_iff] at hemp
      cases h
      rcases Hclv u v huv with hv | hv
      · exact Hacc u v huv hv
      · rw [hemp] at hv; cases hv
    · exact absurd h (by simp)
  | n + 1, acc, rem, L => by
    intro h Hacc Hclu Hclv u v huv
    rw [kahnAux] at h
    split at h
    · split at h
      · rename_i hemp
        rw [List.isEmpty_iff] at hemp
        cases h
        rcases Hclv u v huv with hv | hv
        · exact Hacc u v huv hv
        · rw [hemp] at hv; cases hv
      · exact absurd h (by simp)
    · refine kahnAux_forward edges n _ _ L h ?_ ?_ ?_ u v huv
      · -- the invariant for the enlarged accumulator
        intro a b hab hb
        rcases List.mem_append.mp hb with hba | hbz
        · exact (Hacc a b hab hba).trans (List.sublist_append_left _ _)
        · have hbrem : b ∈ rem ∧ ¬ hasInRem edges rem b = true := by
            have := List.mem_filter.mp hbz
            simpa using this
          have ha : a ∈ acc := by
            rcases Hclu a b hab with h' | h'
            · exact h'
            · exfalso
              apply hbrem.2
              unfold hasInRem
              rw [List.any_eq_true]
              exact ⟨a, h', List.elem_iff.mpr hab⟩
          have h1 : List.Sublist [a] acc := List.singleton_sublist.mpr ha
          have h2 : List.Sublist [b]
              (rem.filter (fun v => !(hasInRem edges rem v))) :=
            List.singleton_sublist.mpr hbz
          exact h1.append h2
      · intro a b hab
        rcases Hclu a b hab with h' | h'
        · exact Or.inl (List.mem_append.mpr (Or.inl h'))
        · by_cases hp : hasInRem edges rem a = true
          · exact Or.inr (List.mem_filter.mpr ⟨h', hp⟩)
          · exact Or.inl (List.mem_append.mpr (Or.inr
              (List.mem_filter.mpr ⟨h', by simp [hp]⟩)))
      · intro a b hab
        rcases Hclv a b hab with h' | h'
        · exact Or.inl (List.mem_append.mpr (Or.inl h'))
        · by_cases hp : hasInRem edges rem b = true
          · exact Or.inr (List.mem_filter.mpr ⟨h', hp⟩)
          · exact Or.inl (List.mem_append.mpr (Or.inr
              (List.mem_filter.mpr ⟨h', by simp [hp]⟩)))

theorem topologicalSort_perm {nodes L : List String} {edges : List (String × String)}
    (h : topologicalSort nodes edges = some L) : L.Perm nodes := by
  have := kahnAux_perm edges nodes.length [] nodes L h
  simpa using this

theorem topologicalSort_forward {nodes L : List String}
    {edges : List (String × String)}
    (h : topologicalSort nodes edges = some L)
    (hcl : ∀ u v, (u, v) ∈ edges → u ∈ nodes ∧ v ∈ nodes) :
    ∀ u v, (u, v) ∈ edges → List.Sublist [u, v] L := by
  refine kahnAux_forward edges nodes.length [] nodes L h ?_ ?_ ?_
  · intro u v _ hv; cases hv
  · intro u v huv; exact Or.inr (hcl u v huv).1
  · intro u v huv; exact Or.inr (hcl u v huv).2

theorem exists_cycle_of_forall_pred {α : Type} [DecidableEq α]
    (R : α → α → Prop) (S : List α) (hS : S ≠ [])
    (h : ∀ v ∈ S, ∃ u ∈ S, R u v) : ∃ v, Relation.TransGen R v v := by
  have hf : ∀ x : {v // v ∈ S}, ∃ y : {v // v ∈ S}, R y.1 x.1 := by
    intro x
    obtain ⟨u, hu, hr⟩ := h x.1 x.2
    exact ⟨⟨u, hu⟩, hr⟩
  choose f hf' using hf
  obtain ⟨s0, hs0⟩ : ∃ s, s ∈ S := by
    cases S with
    | nil => exact absurd rfl hS
    | cons a t => exact ⟨a, List.mem_cons_self a t⟩
  set x : ℕ → {v // v ∈ S} := fun k => f^[k] ⟨s0, hs0⟩ with hx
  have hstep : ∀ k, R (x (k + 1)).1 (x k).1 := by
    intro k
    have hit : x (k + 1) = f (x k) := Function.iterate_succ_apply' f k _
    rw [hit]
    exact hf' (x k)
  have hchain : ∀ a b, a < b → Relation.TransGen R (x b).1 (x a).1 := by
    intro a b hab
    induction b with
    | zero => omega
    | succ b ih =>
      rcases Nat.lt_succ_iff_lt_or_eq.mp hab with h' | h'
      · exact Relation.TransGen.head (hstep b) (ih h')
      · subst h'
        exact Relation.TransGen.single (hstep a)
  have hmap : ∀ k ∈ (Finset.univ : Finset (Fin (S.toFinset.card + 1))),
      (x k.1).1 ∈ S.toFinset := fun k _ => List.mem_toFinset.mpr (x k.1).2
  have hcard : S.toFinset.card <
      (Finset.univ : Finset (Fin (S.toFinset.card + 1))).card := by
    simp
  obtain ⟨i, _, j, _, hij, hxy⟩ :=
    Finset.exists_ne_map_eq_of_card_lt_of_maps_to hcard hmap
  rcases Nat.lt_or_ge i.1 j.1 with hlt | hge
  · refine ⟨(x j.1).1, ?_⟩
    have := hchain i.1 j.1 hlt
    rw [hxy] at this
    exact this
  · have hlt : j.1 < i.1 := by
      rcases Nat.lt_or_ge j.1 i.1 with h' | h'
      · exact h'
      · exact absurd (Fin.ext (Nat.le_antisymm h' hge)) hij
    refine ⟨(x i.1).1, ?_⟩
    have := hchain j.1 i.1 hlt
    rw [← hxy] at this
    exact this

theorem kahnAux_none_cycle (edges : List (String × String)) :
    ∀ (n : Nat) (acc rem : List String),
      rem.length ≤ n → kahnAux edges n acc rem = none →
      ∃ v, Relation.TransGen (fun a b => (a, b) ∈ edges) v v
  | 0, acc, rem => by
    intro hlen h
    rw [kahnAux] at h
    have : rem = [] := List.length_eq_zero.mp (Nat.le_zero.mp hlen)
    rw [this] at h
    simp at h
  | n + 1, acc, rem => by
    intro hlen h
    rw [kahnAux] at h
    split at h
    · rename_i hz
      split at h
      · exact absurd h (by simp)
      · rename_i hne
        have hrem : rem ≠ [] := by
          intro hc
          rw [hc] at hne
          simp at hne
        refine exists_cycle_of_forall_pred _ rem hrem ?_
        intro v hv
        rw [List.isEmpty_iff] at hz
        have := List.filter_eq_nil_iff.mp hz v hv
        have hp : hasInRem edges rem v = true := by
          by_cases hc : hasInRem edges rem v = true
          · exact hc
          · exact absurd (by simp [hc]) this
        unfold hasInRem at hp
        obtain ⟨u, hu, hcont⟩ := List.any_eq_true.mp hp
        exact ⟨u, hu, List.elem_iff.mp hcont⟩
    · rename_i hz
      refine kahnAux_none_cycle edges n _ _ ?_ h
      have hle := List.length_eq_length_filter_add
        (l := rem) (hasInRem edges rem)
      have hpos : 0 < (rem.filter (fun v => !(hasInRem edges rem v))).length := by
        rcases hlist : rem.filter (fun v => !(hasInRem edges rem v)) with _ | ⟨a, t⟩
        · rw [hlist] at hz; simp at hz
        · simp [hlist]
      omega

theorem topologicalSort_none_cycle {nodes : List String}
    {edges : List (String × String)}
    (h : topologicalSort nodes edges = none) :
    ∃ v, Relation.TransGen (fun a b => (a, b) ∈ edges) v v :=
  kahnAux_none_cycle edges nodes.length [] nodes (Nat.le_refl _) h

theorem sublist_pair_indexOf_lt :
    ∀ {l : List String}, l.Nodup → ∀ {u v : String},
      List.Sublist [u, v] l → l.indexOf u < l.indexOf v
  | [], _, u, v, h => by
    exact absurd (List.sublist_nil.mp h) (by simp)
  | a :: t, hnd, u, v, h => by
    rcases List.nodup_cons.mp hnd with ⟨hat, hndt⟩
    cases h with
    | cons _ h' =>
      have hu : u ∈ t := h'.subset (by simp)
      have hv : v ∈ t := h'.subset (by simp)
      have hau : a ≠ u := fun hc => hat (hc ▸ hu)
      have hav : a ≠ v := fun hc => hat (hc ▸ hv)
      rw [List.indexOf_cons_ne t hau, List.indexOf_cons_ne t hav]
      exact Nat.succ_lt_succ (sublist_pair_indexOf_lt hndt h')
    | cons₂ _ h' =>
      have hv : v ∈ t := List.singleton_sublist.mp h'
      have hav : a ≠ v := fun hc => hat (hc ▸ hv)
      rw [List.indexOf_cons_self, List.indexOf_cons_ne t hav]
      exact Nat.succ_pos _

theorem transGen_indexOf_lt {l : List String} (hnd : l.Nodup)
    {edges : List (String × String)}
    (hfwd : ∀ u v, (u, v) ∈ edges → List.Sublist [u, v] l) {a b : String}
    (h : Relation.TransGen (fun a b => (a, b) ∈ edges) a b) :
    l.indexOf a < l.indexOf b := by
  induction h with
  | single h' => exact sublist_pair_indexOf_lt hnd (hfwd _ _ h')
  | tail _ h' ih =>
    exact Nat.lt_trans ih (sublist_pair_indexOf_lt hnd (hfwd _ _ h'))

theorem topologicalSort_some_not_cycle {nodes L : List String}
    {edges : List (String × String)} (hnd : nodes.Nodup)
    (h : topologicalSort nodes edges = some L)
    (hcl : ∀ u v, (u, v) ∈ edges → u ∈ nodes ∧ v ∈ nodes) :
    ¬ ∃ v, Relation.TransGen (fun a b => (a, b) ∈ edges) v v := by
  rintro ⟨v, hv⟩
  have hLnd : L.Nodup := ((topologicalSort_perm h).symm.nodup hnd)
  have := transGen_indexOf_lt hLnd (topologicalSort_forward h hcl) hv
  omega

/-! ### Claim C5: cycle errors -/

/-- The dependency subgraph induced by a task set contains a directed cycle:
some node reaches itself through a nonempty chain of induced edges. -/
def HasCycle (task_codes : List String) (dependencies : List DepRow) : Prop :=
  ∃ v, Relation.TransGen
    (fun a b => (a, b) ∈ inducedEdges task_codes dependencies) v v

theorem contains_congr {S T : List String}
    (h : ∀ x, x ∈ S ↔ x ∈ T) (x : String) : S.contains x = T.contains x := by
  by_cases hx : x ∈ S
  · have h1 : S.contains x = true := List.elem_iff.mpr hx
    have h2 : T.contains x = true := List.elem_iff.mpr ((h x).mp hx)
    rw [h1, h2]
  · have h1 : S.contains x = false :=
      Bool.eq_false_iff.mpr (fun hc => hx (List.elem_iff.mp hc))
    have h2 : T.contains x = false :=
      Bool.eq_false_iff.mpr (fun hc => hx ((h x).mpr (List.elem_iff.mp hc)))
    rw [h1, h2]

theorem inducedRels_congr {S T : List String} {deps : List DepRow}
    (h : ∀ x, x ∈ S ↔ x ∈ T) : inducedRels S deps = inducedRels T deps := by
  unfold inducedRels
  refine List.filter_congr ?_
  intro r _
  rw [contains_congr h, contains_congr h]

theorem inducedEdges_congr {S T : List String} {deps : List DepRow}
    (h : ∀ x, x ∈ S ↔ x ∈ T) : inducedEdges S deps = inducedEdges T deps := by
  unfold inducedEdges
  rw [inducedRels_congr h]

theorem inducedEdges_dedup (S : List String) (deps : List DepRow) :
    inducedEdges (dedupKeepFirst S) deps = inducedEdges S deps :=
  inducedEdges_congr (fun _ => mem_dedupKeepFirst)

theorem mem_of_mem_inducedEdges {S : List String} {deps : List DepRow}
    {u v : String} (h : (u, v) ∈ inducedEdges S deps) : u ∈ S ∧ v ∈ S := by
  unfold inducedEdges at h
  rw [mem_dedupKeepFirst] at h
  obtain ⟨r, hr, heq⟩ := List.mem_map.mp h
  have hf := (List.mem_filter.mp hr).2
  rw [Bool.and_eq_true] at hf
  have h1 := List.elem_iff.mp hf.1
  have h2 := List.elem_iff.mp hf.2
  cases heq
  exact ⟨h1, h2⟩

theorem topologicalSort_none_iff_cycle {nodes : List String}
    {edges : List (String × String)} (hnd : nodes.Nodup)
    (hcl : ∀ u v, (u, v) ∈ edges → u ∈ nodes ∧ v ∈ nodes) :
    topologicalSort nodes edges = none ↔
      ∃ v, Relation.TransGen (fun a b => (a, b) ∈ edges) v v := by
  constructor
  · exact topologicalSort_none_cycle
  · intro hcyc
    cases h : topologicalSort nodes edges with
    | none => rfl
    | some L => exact absurd hcyc (topologicalSort_some_not_cycle hnd h hcl)

theorem compute_schedule_error_iff {compiled : List CompiledTask}
    {deps : List DepRow} {start : ℤ} {mode : String} {fb : Bool} :
    compute_schedule compiled deps start mode fb =
      .error "Dependency graph has cycles among selected tasks." ↔
    topologicalSort (selectedCodes compiled)
      (inducedEdges (selectedCodes compiled) deps) = none := by
  unfold compute_schedule
  cases h : topologicalSort (selectedCodes compiled)
      (inducedEdges (selectedCodes compiled) deps) <;> simp

theorem compute_schedule_ok_iff {compiled : List CompiledTask}
    {deps : List DepRow} {start : ℤ} {mode : String} {fb : Bool} :
    (∃ planned, compute_schedule compiled deps start mode fb = .ok planned) ↔
    (∃ order, topologicalSort (selectedCodes compiled)
      (inducedEdges (selectedCodes compiled) deps) = some order) := by
  unfold compute_schedule
  cases h : topologicalSort (selectedCodes compiled)
      (inducedEdges (selectedCodes compiled) deps) <;> simp

/-- C5: a cycle in the induced dependency subgraph makes both the Scheduler
and the Critical Path Analyzer fail with their cycle errors (and, the result
being an `error`, no partial schedule or path is returned); on acyclic inputs
the Scheduler succeeds and the Critical Path Analyzer never raises its cycle
error (its only other failure is the empty-sequence `max()` error). -/
theorem claim_C5_cycle_errors (compiled : List CompiledTask)
    (dependencies : List DepRow) (start : ℤ) (mode : String) (fb : Bool)
    (durations : List (String × ℚ)) :
    (HasCycle (compiled.map (fun t => t.task_code)) dependencies →
      compute_schedule compiled dependencies start mode fb =
        .error "Dependency graph has cycles among selected tasks." ∧
      critical_path (compiled.map (fun t => t.task_code)) dependencies durations =
        .error "Graph has cycles; critical path undefined.") ∧
    (¬ HasCycle (compiled.map (fun t => t.task_code)) dependencies →
      (∃ planned, compute_schedule compiled dependencies start mode fb =
        .ok planned) ∧
      (∀ msg, critical_path (compiled.map (fun t => t.task_code)) dependencies
          durations = .error msg → msg = "max() arg is an empty sequence")) := by
  have hEq : inducedEdges (selectedCodes compiled) dependencies =
      inducedEdges (compiled.map (fun t => t.task_code)) dependencies :=
    inducedEdges_dedup _ _
  have hnd : (selectedCodes compiled).Nodup := nodup_dedupKeepFirst _
  have hcl : ∀ u v,
      (u, v) ∈ inducedEdges (compiled.map (fun t => t.task_code)) dependencies →
      u ∈ selectedCodes compiled ∧ v ∈ selectedCodes compiled := by
    intro u v huv
    have := mem_of_mem_inducedEdges huv
    exact ⟨mem_dedupKeepFirst.mpr this.1, mem_dedupKeepFirst.mpr this.2⟩
  have hiff : topologicalSort (selectedCodes compiled)
      (inducedEdges (selectedCodes compiled) dependencies) = none ↔
      HasCycle (compiled.map (fun t => t.task_code)) dependencies := by
    rw [hEq]
    exact topologicalSort_none_iff_cycle hnd hcl
  constructor
  · intro hcyc
    have hnone := hiff.mpr hcyc
    refine ⟨compute_schedule_error_iff.mpr hnone, ?_⟩
    unfold critical_path
    have hnone' : topologicalSort (dedupKeepFirst (compiled.map (fun t => t.task_code)))
        (inducedEdges (compiled.map (fun t => t.task_code)) dependencies) = none := by
      rw [← hEq]
      exact hnone
    rw [hnone']
  · intro hacy
    have hsome : ∃ order, topologicalSort (selectedCodes compiled)
        (inducedEdges (selectedCodes compiled) dependencies) = some order := by
      cases h : topologicalSort (selectedCodes compiled)
          (inducedEdges (selectedCodes compiled) dependencies) with
      | none => exact absurd (hiff.mp h) hacy
      | some L => exact ⟨L, rfl⟩
    refine ⟨compute_schedule_ok_iff.mpr hsome, ?_⟩
    intro msg hmsg
    obtain ⟨order, horder⟩ := hsome
    have horder' : topologicalSort (dedupKeepFirst (compiled.map (fun t => t.task_code)))
        (inducedEdges (compiled.map (fun t => t.task_code)) dependencies) =
        some order := by
      rw [← hEq]
      exact horder
    unfold critical_path at hmsg
    rw [horder'] at hmsg
    cases order with
    | nil => cases hmsg; rfl
    | cons h t => cases hmsg

/-- Witness for C5: on a concrete two-task cycle the Scheduler reports the
cycle error, via the theorem. -/
theorem claim_C5_witness :
    compute_schedule
      [⟨"A", "A", "P", "", false, true, 0, "", none, none, none, some 1, none, none, []⟩,
       ⟨"B", "B", "P", "", false, true, 0, "", none, none, none, some 1, none, none, []⟩]
      [⟨"A", "B", "FS", none⟩, ⟨"B", "A", "FS", none⟩] 0 "practical" true =
      .error "Dependency graph has cycles among selected tasks." :=
  ((claim_C5_cycle_errors
      [⟨"A", "A", "P", "", false, true, 0, "", none, none, none, some 1, none, none, []⟩,
       ⟨"B", "B", "P", "", false, true, 0, "", none, none, none, some 1, none, none, []⟩]
      [⟨"A", "B", "FS", none⟩, ⟨"B", "A", "FS", none⟩] 0 "practical" true []).1
    ⟨"A", Relation.TransGen.head
      (by decide : ("A", "B") ∈ inducedEdges _ _)
      (Relation.TransGen.single (by decide))⟩).1

/-! ### The scheduler's forward pass -/

theorem schedFold_not_mem (rels : List DepRow) (durs : String → ℚ) :
    ∀ (l : List String) (s0 : String → ℚ) (v : String), v ∉ l →
      l.foldl (schedStep rels durs) s0 v = s0 v
  | [], _, _, _ => rfl
  | tc :: t, s0, v, hv => by
    rw [List.foldl_cons]
    have hvt : v ∉ t := fun hc => hv (List.mem_cons_of_mem tc hc)
    rw [schedFold_not_mem rels durs t _ v hvt]
    unfold schedStep
    have hvtc : ¬ v = tc := fun hc => hv (hc ▸ List.mem_cons_self tc t)
    simp [hvtc]

theorem depCandidate_congr {s1 s2 : String → ℚ} (durs : String → ℚ)
    (tc : String) (r : DepRow)
    (h : s1 r.predecessor_task_code = s2 r.predecessor_task_code) :
    depCandidate s1 durs tc r = depCandidate s2 durs tc r := by
  unfold depCandidate
  rw [h]

theorem foldl_if_max :
    ∀ (l : List DepRow) (f : DepRow → ℚ) (a : ℚ),
      l.foldl (fun best r => if f r > best then f r else best) a =
        (l.map f).foldl max a
  | [], _, _ => rfl
  | r :: t, f, a => by
    rw [List.foldl_cons, List.map_cons, List.foldl_cons, foldl_if_max t f _]
    congr 1
    by_cases h : f r > a
    · rw [if_pos h, max_eq_right (le_of_lt h)]
    · rw [if_neg h, max_eq_left (le_of_not_lt h)]

theorem mem_left_of_pair_sublist {l1 l2 : List String} {u v : String}
    (hnd : (l1 ++ v :: l2).Nodup)
    (h : List.Sublist [u, v] (l1 ++ v :: l2)) : u ∈ l1 := by
  have hidx := sublist_pair_indexOf_lt hnd h
  have hvnotl1 : v ∉ l1 := by
    rcases List.nodup_append.mp hnd with ⟨_, _, hdisj⟩
    exact fun hc => hdisj hc (List.mem_cons_self _ _)
  have hv_idx : (l1 ++ v :: l2).indexOf v = l1.length := by
    rw [List.indexOf_append_of_not_mem hvnotl1, List.indexOf_cons_self]
    omega
  by_contra hu
  have hu_idx : l1.length ≤ (l1 ++ v :: l2).indexOf u := by
    rw [List.indexOf_append_of_not_mem hu]
    omega
  omega

/-- The fixpoint characterization of the forward pass on a topologically
sorted order: each task's final start is the maximum of `0` and the incoming
constraints computed from the final predecessor values. -/
theorem computeStarts_spec (rels : List DepRow) (durs : String → ℚ)
    {order : List String} (hnd : order.Nodup)
    (hfwd : ∀ r ∈ rels, r.successor_task_code ∈ order →
      List.Sublist [r.predecessor_task_code, r.successor_task_code] order) :
    ∀ tc ∈ order,
      computeStarts rels durs order tc =
        ((rels.filter (fun r => r.successor_task_code = tc)).map
          (depCandidate (computeStarts rels durs order) durs tc)).foldl max 0 := by
  intro tc htc
  obtain ⟨l1, l2, horder⟩ := List.append_of_mem htc
  subst horder
  have htc_l2 : tc ∉ l2 := by
    rcases List.nodup_append.mp hnd with ⟨_, hnd2, _⟩
    exact (List.nodup_cons.mp hnd2).1
  have htc_l1 : tc ∉ l1 := by
    rcases List.nodup_append.mp hnd with ⟨_, _, hdisj⟩
    exact fun hc => hdisj hc (List.mem_cons_self _ _)
  have hstep1 : computeStarts rels durs (l1 ++ tc :: l2) tc =
      applyIncoming rels durs
        (l1.foldl (schedStep rels durs) (fun _ => 0)) tc := by
    unfold computeStarts
    rw [List.foldl_append, List.foldl_cons]
    rw [schedFold_not_mem rels durs l2 _ tc htc_l2]
    unfold schedStep
    simp
  rw [hstep1]
  unfold applyIncoming
  rw [schedFold_not_mem rels durs l1 _ tc htc_l1]
  rw [foldl_if_max]
  congr 1
  refine List.map_congr_left ?_
  intro r hr
  rcases List.mem_filter.mp hr with ⟨hrels, hsucc⟩
  have hsucc' : r.successor_task_code = tc := by simpa using hsucc
  have hsub := hfwd r hrels (by rw [hsucc']; exact htc)
  rw [hsucc'] at hsub
  have hpre : r.predecessor_task_code ∈ l1 := mem_left_of_pair_sublist hnd hsub
  refine depCandidate_congr durs tc r ?_
  have hpre_not : r.predecessor_task_code ∉ tc :: l2 := by
    rcases List.nodup_append.mp hnd with ⟨_, _, hdisj⟩
    exact hdisj hpre
  unfold computeStarts
  rw [List.foldl_append,
    schedFold_not_mem rels durs (tc :: l2) _ _ hpre_not]

theorem pair_mem_inducedEdges {S : List String} {deps : List DepRow} {r : DepRow}
    (hr : r ∈ inducedRels S deps) :
    (r.predecessor_task_code, r.successor_task_code) ∈ inducedEdges S deps := by
  unfold inducedEdges
  rw [mem_dedupKeepFirst]
  exact List.mem_map.mpr ⟨r, hr, rfl⟩

/-- C2 counterexample: with one FF edge A→B (durations 0 and 5), the sole
incoming candidate for B is −5, but the computed start offset of B is 0, so
the start offset is not the maximum over the incoming-edge candidates. -/
theorem claim_C2_counterexample :
    topologicalSort
      (selectedCodes
        [⟨"A", "A", "P", "", false, true, 0, "", none, none, none, some 0, none, none, []⟩,
         ⟨"B", "B", "P", "", false, true, 0, "", none, none, none, some 5, none, none, []⟩])
      (inducedEdges
        (selectedCodes
          [⟨"A", "A", "P", "", false, true, 0, "", none, none, none, some 0, none, none, []⟩,
           ⟨"B", "B", "P", "", false, true, 0, "", none, none, none, some 5, none, none, []⟩])
        [⟨"A", "B", "FF", none⟩]) = some ["A", "B"] ∧
    ((inducedRels
        (selectedCodes
          [⟨"A", "A", "P", "", false, true, 0, "", none, none, none, some 0, none, none, []⟩,
           ⟨"B", "B", "P", "", false, true, 0, "", none, none, none, some 5, none, none, []⟩])
        [⟨"A", "B", "FF", none⟩]).filter
      (fun r => r.successor_task_code = "B")).map
      (depCandidate
        (computeStarts
          (inducedRels
            (selectedCodes
              [⟨"A", "A", "P", "", false, true, 0, "", none, none, none, some 0, none, none, []⟩,
               ⟨"B", "B", "P", "", false, true, 0, "", none, none, none, some 5, none, none, []⟩])
            [⟨"A", "B", "FF", none⟩])
          (tasksDurs
            [⟨"A", "A", "P", "", false, true, 0, "", none, none, none, some 0, none, none, []⟩,
             ⟨"B", "B", "P", "", false, true, 0, "", none, none, none, some 5, none, none, []⟩]
            "practical" true) ["A", "B"])
        (tasksDurs
          [⟨"A", "A", "P", "", false, true, 0, "", none, none, none, some 0, none, none, []⟩,
           ⟨"B", "B", "P", "", false, true, 0, "", none, none, none, some 5, none, none, []⟩]
          "practical" true) "B") = [(-5 : ℚ)] ∧
    computeStarts
      (inducedRels
        (selectedCodes
          [⟨"A", "A", "P", "", false, true, 0, "", none, none, none, some 0, none, none, []⟩,
           ⟨"B", "B", "P", "", false, true, 0, "", none, none, none, some 5, none, none, []⟩])
        [⟨"A", "B", "FF", none⟩])
      (tasksDurs
        [⟨"A", "A", "P", "", false, true, 0, "", none, none, none, some 0, none, none, []⟩,
         ⟨"B", "B", "P", "", false, true, 0, "", none, none, none, some 5, none, none, []⟩]
        "practical" true) ["A", "B"] "B" = 0 ∧
    (-5 : ℚ) ≠ 0 := by
  refine ⟨by decide, ?_, ?_, by norm_num⟩
  · simp +decide [inducedRels, selectedCodes, dedupKeepFirst, dedupSeen,
      computeStarts, schedStep, applyIncoming, depCandidate, tasksDurs, get_dur]
  · simp +decide [inducedRels, selectedCodes, dedupKeepFirst, dedupSeen,
      computeStarts, schedStep, applyIncoming, depCandidate, tasksDurs, get_dur]

/-- C2 amended: on any successful topological order, each task's final start
offset is the maximum of 0 and the incoming-edge candidates computed from the
final predecessor values; the candidate of an edge is finish(P)+lag for FS,
start(P)+lag for SS, finish(P)+lag−duration(task) for FF, and the FS formula
for any unrecognized type, where finish(P) = start(P) + duration(P). -/
theorem claim_C2_amended_start_offsets (compiled : List CompiledTask)
    (dependencies : List DepRow) (duration_mode : String) (fb : Bool)
    (order : List String)
    (horder : topologicalSort (selectedCodes compiled)
      (inducedEdges (selectedCodes compiled) dependencies) = some order) :
    (∀ tc ∈ order,
      computeStarts (inducedRels (selectedCodes compiled) dependencies)
          (tasksDurs compiled duration_mode fb) order tc =
        (((inducedRels (selectedCodes compiled) dependencies).filter
            (fun r => r.successor_task_code = tc)).map
          (depCandidate
            (computeStarts (inducedRels (selectedCodes compiled) dependencies)
              (tasksDurs compiled duration_mode fb) order)
            (tasksDurs compiled duration_mode fb) tc)).foldl max 0) ∧
    (∀ (starts durs : String → ℚ) (tc : String) (r : DepRow),
      (r.dependency_type = "FS" →
        depCandidate starts durs tc r =
          starts r.predecessor_task_code + durs r.predecessor_task_code +
            r.lag_days.getD 0) ∧
      (r.dependency_type = "SS" →
        depCandidate starts durs tc r =
          starts r.predecessor_task_code + r.lag_days.getD 0) ∧
      (r.dependency_type = "FF" →
        depCandidate starts durs tc r =
          starts r.predecessor_task_code + durs r.predecessor_task_code +
            r.lag_days.getD 0 - durs tc) ∧
      (r.dependency_type ≠ "FS" → r.dependency_type ≠ "SS" →
        r.dependency_type ≠ "FF" →
        depCandidate starts durs tc r =
          starts r.predecessor_task_code + durs r.predecessor_task_code +
            r.lag_days.getD 0)) := by
  constructor
  · have hnd : order.Nodup :=
      (topologicalSort_perm horder).symm.nodup (nodup_dedupKeepFirst _)
    have hcl : ∀ u v,
        (u, v) ∈ inducedEdges (selectedCodes compiled) dependencies →
        u ∈ selectedCodes compiled ∧ v ∈ selectedCodes compiled := by
      intro u v huv
      exact mem_of_mem_inducedEdges huv
    have hfwd : ∀ r ∈ inducedRels (selectedCodes compiled) dependencies,
        r.successor_task_code ∈ order →
        List.Sublist [r.predecessor_task_code, r.successor_task_code] order := by
      intro r hr _
      exact topologicalSort_forward horder hcl _ _ (pair_mem_inducedEdges hr)
    exact computeStarts_spec _ _ hnd hfwd
  · intro starts durs tc r
    refine ⟨?_, ?_, ?_, ?_⟩
    · intro h
      unfold depCandidate
      rw [h]
      simp
    · intro h
      unfold depCandidate
      rw [h]
      simp
    · intro h
      unfold depCandidate
      rw [h]
      simp
    · intro h1 h2 h3
      unfold depCandidate
      rw [if_neg h1, if_neg h2, if_neg h3]

/-- Witness for C2: on a concrete FS chain the theorem instantiates at task
"B" to a concrete start-offset equation. -/
theorem claim_C2_witness :
    computeStarts
      (inducedRels
        (selectedCodes
          [⟨"A", "A", "P", "", false, true, 0, "", none, none, none, some 2, none, none, []⟩,
           ⟨"B", "B", "P", "", false, true, 0, "", none, none, none, some 3, none, none, []⟩])
        [⟨"A", "B", "FS", none⟩])
      (tasksDurs
        [⟨"A", "A", "P", "", false, true, 0, "", none, none, none, some 2, none, none, []⟩,
         ⟨"B", "B", "P", "", false, true, 0, "", none, none, none, some 3, none, none, []⟩]
        "practical" true) ["A", "B"] "B" =
      (((inducedRels
          (selectedCodes
            [⟨"A", "A", "P", "", false, true, 0, "", none, none, none, some 2, none, none, []⟩,
             ⟨"B", "B", "P", "", false, true, 0, "", none, none, none, some 3, none, none, []⟩])
          [⟨"A", "B", "FS", none⟩]).filter
        (fun r => r.successor_task_code = "B")).map
        (depCandidate
          (computeStarts
            (inducedRels
              (selectedCodes
                [⟨"A", "A", "P", "", false, true, 0, "", none, none, none, some 2, none, none, []⟩,
                 ⟨"B", "B", "P", "", false, true, 0, "", none, none, none, some 3, none, none, []⟩])
              [⟨"A", "B", "FS", none⟩])
            (tasksDurs
              [⟨"A", "A", "P", "", false, true, 0, "", none, none, none, some 2, none, none, []⟩,
               ⟨"B", "B", "P", "", false, true, 0, "", none, none, none, some 3, none, none, []⟩]
              "practical" true) ["A", "B"])
          (tasksDurs
            [⟨"A", "A", "P", "", false, true, 0, "", none, none, none, some 2, none, none, []⟩,
             ⟨"B", "B", "P", "", false, true, 0, "", none, none, none, some 3, none, none, []⟩]
            "practical" true) "B")).foldl max 0 :=
  (claim_C2_amended_start_offsets
    [⟨"A", "A", "P", "", false, true, 0, "", none, none, none, some 2, none, none, []⟩,
     ⟨"B", "B", "P", "", false, true, 0, "", none, none, none, some 3, none, none, []⟩]
    [⟨"A", "B", "FS", none⟩] "practical" true ["A", "B"] (by decide)).1
    "B" (by decide)

/-! ### Claim C9: start offsets never go negative -/

theorem foldl_if_max_ge :
    ∀ (l : List DepRow) (f : DepRow → ℚ) (a : ℚ),
      a ≤ l.foldl (fun best r => if f r > best then f r else best) a
  | [], _, a => le_refl a
  | r :: t, f, a => by
    rw [List.foldl_cons]
    refine le_trans ?_ (foldl_if_max_ge t f _)
    by_cases h : f r > a
    · rw [if_pos h]
      exact le_of_lt h
    · rw [if_neg h]

theorem applyIncoming_ge (rels : List DepRow) (durs starts : String → ℚ)
    (tc : String) : starts tc ≤ applyIncoming rels durs starts tc := by
  unfold applyIncoming
  exact foldl_if_max_ge _ _ _

theorem schedFold_nonneg (rels : List DepRow) (durs : String → ℚ) :
    ∀ (l : List String) (s0 : String → ℚ), (∀ v, 0 ≤ s0 v) →
      ∀ v, 0 ≤ l.foldl (schedStep rels durs) s0 v
  | [], _, h, v => h v
  | tc :: t, s0, h, v => by
    rw [List.foldl_cons]
    refine schedFold_nonneg rels durs t _ ?_ v
    intro w
    unfold schedStep
    by_cases hw : w = tc
    · rw [if_pos hw]
      exact le_trans (h tc) (applyIncoming_ge rels durs s0 tc)
    · rw [if_neg hw]
      exact h w

/-- C9: every computed start offset is ≥ 0 (negative candidates — e.g. from
FF constraints or negative lags — are discarded in favour of the 0
initialization), hence every planned start date is on or after the plan
start date. -/
theorem claim_C9_nonneg_start_offsets (compiled : List CompiledTask)
    (dependencies : List DepRow) (start : ℤ) (duration_mode : String)
    (fb : Bool) (planned : List PlannedTaskDates)
    (h : compute_schedule compiled dependencies start duration_mode fb =
      .ok planned) :
    (∀ (order : List String) (tc : String),
      0 ≤ computeStarts (inducedRels (selectedCodes compiled) dependencies)
        (tasksDurs compiled duration_mode fb) order tc) ∧
    (∀ p ∈ planned, start ≤ p.planned_start) := by
  have hnn : ∀ (order : List String) (tc : String),
      0 ≤ computeStarts (inducedRels (selectedCodes compiled) dependencies)
        (tasksDurs compiled duration_mode fb) order tc := by
    intro order tc
    exact schedFold_nonneg _ _ order _ (fun _ => le_refl 0) tc
  refine ⟨hnn, ?_⟩
  intro p hp
  unfold compute_schedule at h
  rcases hts : topologicalSort (selectedCodes compiled)
      (inducedEdges (selectedCodes compiled) dependencies) with _ | order
  · rw [hts] at h
    cases h
  · rw [hts] at h
    cases h
    obtain ⟨tc, _, rfl⟩ := List.mem_map.mp hp
    show start ≤ start + pyRound (computeStarts _ _ _ _)
    have := pyRound_nonneg (hnn order tc)
    omega

/-- Witness for C9: on the concrete FF example whose only candidate is
negative, the planned start of "B" stays on the plan start date. -/
theorem claim_C9_witness :
    (0 : ℤ) ≤ (⟨"B", 0, 5, 5⟩ : PlannedTaskDates).planned_start :=
  (claim_C9_nonneg_start_offsets
    [⟨"A", "A", "P", "", false, true, 0, "", none, none, none, some 0, none, none, []⟩,
     ⟨"B", "B", "P", "", false, true, 0, "", none, none, none, some 5, none, none, []⟩]
    [⟨"A", "B", "FF", none⟩] 0 "practical" true
    [⟨"A", 0, 0, 0⟩, ⟨"B", 0, 5, 5⟩]
    (by
      have h0 : pyRound (0 : ℚ) = 0 := by
        unfold pyRound
        norm_num
      have h5 : pyRound (5 : ℚ) = 5 := by
        unfold pyRound
        norm_num
      simp +decide [compute_schedule, plannedOf, selectedCodes, dedupKeepFirst,
        dedupSeen, inducedRels, inducedEdges, topologicalSort, kahnAux, hasInRem,
        computeStarts, schedStep, applyIncoming, depCandidate, tasksDurs,
        get_dur, h0, h5])).2
    ⟨"B", 0, 5, 5⟩ (by simp)

/-! ### Claim C6: rounding to calendar dates -/

/-- C6 counterexample: with durations 3/5 on an FS chain, task B has start
offset 3/5 and duration 3/5.  The code rounds start and duration separately
(planned finish day 0 + 1 + 1 = 2), while rounding the finish offset
start+duration = 6/5 would give day 1. -/
theorem claim_C6_counterexample :
    compute_schedule
      [⟨"A", "A", "P", "", false, true, 0, "", none, none, none, some (3/5), none, none, []⟩,
       ⟨"B", "B", "P", "", false, true, 0, "", none, none, none, some (3/5), none, none, []⟩]
      [⟨"A", "B", "FS", none⟩] 0 "practical" true =
      .ok [⟨"A", 0, 1, 3/5⟩, ⟨"B", 1, 2, 3/5⟩] ∧
    pyRound ((3/5 : ℚ) + 3/5) = 1 ∧
    ((2 : ℤ) ≠ 0 + 1) := by
  have hfl0 : ⌊(3/5 : ℚ)⌋ = 0 := by
    rw [Int.floor_eq_iff]
    norm_num
  have hfl1 : ⌊(3/5 : ℚ) + 3/5⌋ = 1 := by
    rw [Int.floor_eq_iff]
    norm_num
  have h35 : pyRound (3/5 : ℚ) = 1 := by
    unfold pyRound
    rw [hfl0]
    norm_num
  have h65 : pyRound ((3/5 : ℚ) + 3/5) = 1 := by
    unfold pyRound
    rw [hfl1]
    norm_num
  have h0 : pyRound (0 : ℚ) = 0 := by
    unfold pyRound
    norm_num
  refine ⟨?_, h65, by norm_num⟩
  simp +decide [compute_schedule, plannedOf, selectedCodes, dedupKeepFirst,
    dedupSeen, inducedRels, inducedEdges, topologicalSort, kahnAux, hasInRem,
    computeStarts, schedStep, applyIncoming, depCandidate, tasksDurs,
    get_dur, h0, h35]

/-- C6 amended: offsets are computed in exact (real-valued) days; the planned
start date is the plan start plus the rounded start offset, and the planned
finish date is the planned start date plus the rounded duration — i.e.
start offset and duration are rounded separately, which can differ from
rounding their sum. -/
theorem claim_C6_amended_rounding (compiled : List CompiledTask)
    (dependencies : List DepRow) (start : ℤ) (duration_mode : String)
    (fb : Bool) (order : List String)
    (horder : topologicalSort (selectedCodes compiled)
      (inducedEdges (selectedCodes compiled) dependencies) = some order) :
    compute_schedule compiled dependencies start duration_mode fb =
      .ok (plannedOf compiled dependencies start duration_mode fb order) ∧
    ∀ p ∈ plannedOf compiled dependencies start duration_mode fb order,
      p.planned_start = start + pyRound
        (computeStarts (inducedRels (selectedCodes compiled) dependencies)
          (tasksDurs compiled duration_mode fb) order p.task_code) ∧
      p.planned_finish = p.planned_start + pyRound p.duration_days ∧
      p.duration_days = tasksDurs compiled duration_mode fb p.task_code := by
  constructor
  · unfold compute_schedule
    rw [horder]
  · intro p hp
    obtain ⟨tc, _, rfl⟩ := List.mem_map.mp hp
    exact ⟨rfl, rfl, rfl⟩

/-- Witness for C6: the amended equations instantiated on the concrete
two-task chain with fractional durations. -/
theorem claim_C6_witness :
    (⟨"B", 1, 2, 3/5⟩ : PlannedTaskDates).planned_finish =
      (⟨"B", 1, 2, 3/5⟩ : PlannedTaskDates).planned_start +
        pyRound ((⟨"B", 1, 2, 3/5⟩ : PlannedTaskDates).duration_days) ∧
    pyRound ((3/5 : ℚ)) = 1 := by
  have hfl0 : ⌊(3/5 : ℚ)⌋ = 0 := by
    rw [Int.floor_eq_iff]
    norm_num
  have h35 : pyRound (3/5 : ℚ) = 1 := by
    unfold pyRound
    rw [hfl0]
    norm_num
  have h0 : pyRound (0 : ℚ) = 0 := by
    unfold pyRound
    norm_num
  have happ := (claim_C6_amended_rounding
    [⟨"A", "A", "P", "", false, true, 0, "", none, none, none, some (3/5), none, none, []⟩,
     ⟨"B", "B", "P", "", false, true, 0, "", none, none, none, some (3/5), none, none, []⟩]
    [⟨"A", "B", "FS", none⟩] 0 "practical" true ["A", "B"] (by decide)).2
  have hmem : (⟨"B", 0 + pyRound (3/5 : ℚ),
      0 + pyRound (3/5 : ℚ) + pyRound (3/5 : ℚ), 3/5⟩ : PlannedTaskDates) ∈
      plannedOf
        [⟨"A", "A", "P", "", false, true, 0, "", none, none, none, some (3/5), none, none, []⟩,
         ⟨"B", "B", "P", "", false, true, 0, "", none, none, none, some (3/5), none, none, []⟩]
        [⟨"A", "B", "FS", none⟩] 0 "practical" true ["A", "B"] := by
    simp +decide [plannedOf, selectedCodes, dedupKeepFirst, dedupSeen,
      inducedRels, computeStarts, schedStep, applyIncoming, depCandidate,
      tasksDurs, get_dur]
  have := (happ _ hmem).2.1
  constructor
  · rw [h35] at this ⊢
    simpa using this
  · exact h35

/-! ### Claim C3: critical path analysis -/

theorem cpEndNode_spec (dist : String → ℚ) :
    ∀ (t : List String) (h : String),
      (∀ x ∈ h :: t, dist x ≤ dist (cpEndNode dist h t)) ∧
      ∃ l1 l2, h :: t = l1 ++ cpEndNode dist h t :: l2 ∧
        ∀ y ∈ l1, dist y < dist (cpEndNode dist h t)
  | [], h => by
    constructor
    · intro x hx
      rcases List.mem_singleton.mp hx with rfl
      exact le_refl _
    · exact ⟨[], [], rfl, by simp⟩
  | x :: t, h => by
    have hfold : cpEndNode dist h (x :: t) =
        cpEndNode dist (if dist x > dist h then x else h) t := rfl
    by_cases hx : dist x > dist h
    · rw [if_pos hx] at hfold
      obtain ⟨hmax, l1, l2, hsplit, hlt⟩ := cpEndNode_spec dist t x
      rw [hfold]
      constructor
      · intro y hy
        rcases List.mem_cons.mp hy with rfl | hy'
        · exact le_trans (le_of_lt hx) (hmax x (List.mem_cons_self x t))
        · exact hmax y (hsplit ▸ hy')
      · refine ⟨h :: l1, l2, by rw [List.cons_append, ← hsplit], ?_⟩
        intro y hy
        rcases List.mem_cons.mp hy with rfl | hy'
        · exact lt_of_lt_of_le hx (hmax x (List.mem_cons_self x t))
        · exact hlt y hy'
    · rw [if_neg hx] at hfold
      obtain ⟨hmax, l1, l2, hsplit, hlt⟩ := cpEndNode_spec dist t h
      rw [hfold]
      have hxle : dist x ≤ dist h := le_of_not_lt hx
      constructor
      · intro y hy
        rcases List.mem_cons.mp hy with rfl | hy'
        · exact hmax y (List.mem_cons_self _ _)
        · rcases List.mem_cons.mp hy' with rfl | hy''
          · exact le_trans hxle (hmax h (List.mem_cons_self _ _))
          · exact hmax y (List.mem_cons_of_mem h hy'')
      · cases l1 with
        | nil =>
          have he : cpEndNode dist h t = h := by
            have := hsplit
            simp at this
            exact this.1.symm
          refine ⟨[], x :: t, ?_, by simp⟩
          rw [he]
          rfl
        | cons a l1' =>
          have ha : a = h := by
            have := congrArg List.head? hsplit
            simpa using this.symm
          subst ha
          have ht : t = l1' ++ cpEndNode dist a t :: l2 := by
            have := congrArg List.tail hsplit
            simpa using this
          refine ⟨a :: x :: l1', l2,
            by rw [List.cons_append, List.cons_append, ← ht], ?_⟩
          intro y hy
          rcases List.mem_cons.mp hy with rfl | hy'
          · exact hlt y (List.mem_cons_self _ _)
          · rcases List.mem_cons.mp hy' with rfl | hy''
            · exact lt_of_le_of_lt hxle (hlt a (List.mem_cons_self _ _))
            · exact hlt y (List.mem_cons_of_mem _ hy'')

theorem mem_successorsOf {edges : List (String × String)} {tc s : String}
    (h : s ∈ successorsOf edges tc) : (tc, s) ∈ edges := by
  unfold successorsOf at h
  obtain ⟨e, he, rfl⟩ := List.mem_map.mp h
  have := List.mem_filter.mp he
  have heq : e.1 = tc := by simpa using this.2
  have : e = (tc, e.2) := by
    rw [← heq]
  rw [← this]
  exact (List.mem_filter.mp he).1

theorem cpStepInner_pred_edge (edges : List (String × String))
    (durations : List (String × ℚ)) (tc : String) :
    ∀ (l : List String) (dp : (String → ℚ) × (String → Option String)),
      (∀ v u, dp.2 v = some u → (u, v) ∈ edges) →
      (∀ s ∈ l, (tc, s) ∈ edges) →
      ∀ v u,
        (l.foldl
          (fun (dp : (String → ℚ) × (String → Option String)) suc =>
            if dp.1 tc + durGet durations suc > dp.1 suc then
              (fun v => if v = suc then dp.1 tc + durGet durations suc else dp.1 v,
               fun v => if v = suc then some tc else dp.2 v)
            else dp) dp).2 v = some u → (u, v) ∈ edges
  | [], dp, hdp, _, v, u => hdp v u
  | s :: l, dp, hdp, hl, v, u => by
    rw [List.foldl_cons]
    refine cpStepInner_pred_edge edges durations tc l _ ?_
      (fun s' hs' => hl s' (List.mem_cons_of_mem s hs')) v u
    intro w z hw
    by_cases hcond : dp.1 tc + durGet durations s > dp.1 s
    · rw [if_pos hcond] at hw
      dsimp only at hw
      by_cases hws : w = s
      · rw [if_pos hws] at hw
        cases hw
        exact hws ▸ hl s (List.mem_cons_self s l)
      · rw [if_neg hws] at hw
        exact hdp w z hw
    · rw [if_neg hcond] at hw
      exact hdp w z hw

theorem cpFold_pred_edge (edges : List (String × String))
    (durations : List (String × ℚ)) :
    ∀ (topo : List String) (dp : (String → ℚ) × (String → Option String)),
      (∀ v u, dp.2 v = some u → (u, v) ∈ edges) →
      ∀ v u, (topo.foldl (cpStep edges durations) dp).2 v = some u →
        (u, v) ∈ edges
  | [], dp, hdp, v, u => hdp v u
  | tc :: topo, dp, hdp, v, u => by
    rw [List.foldl_cons]
    refine cpFold_pred_edge edges durations topo _ ?_ v u
    intro w z hw
    refine cpStepInner_pred_edge edges durations tc (successorsOf edges tc) dp hdp
      (fun s hs => mem_successorsOf hs) w z ?_
    exact hw

theorem reconstructPath_head (pr : String → Option String) :
    ∀ (fuel : Nat) (cur : String),
      ∃ rest, reconstructPath pr fuel cur = cur :: rest
  | 0, cur => ⟨[], rfl⟩
  | n + 1, cur => by
    rw [reconstructPath]
    cases pr cur with
    | none => exact ⟨[], rfl⟩
    | some p => exact ⟨reconstructPath pr n p, rfl⟩

theorem consecPairs_append_singleton {α : Type} :
    ∀ (l : List α) (x : α),
      consecPairs (l ++ [x]) =
        consecPairs l ++
          (match l.getLast? with
           | none => []
           | some y => [(y, x)])
  | [], x => rfl
  | [a], x => rfl
  | a :: b :: t, x => by
    show (a, b) :: consecPairs ((b :: t) ++ [x]) = _
    rw [consecPairs_append_singleton (b :: t) x]
    rfl

theorem reconstructPath_pairs (pr : String → Option String) :
    ∀ (fuel : Nat) (cur : String) (p : String × String),
      p ∈ consecPairs ((reconstructPath pr fuel cur).reverse) →
      pr p.2 = some p.1
  | 0, cur, p => by
    intro hp
    simp [reconstructPath, consecPairs] at hp
  | n + 1, cur, p => by
    intro hp
    rw [reconstructPath] at hp
    cases hpr : pr cur with
    | none =>
      rw [hpr] at hp
      simp [consecPairs] at hp
    | some q =>
      rw [hpr] at hp
      rw [List.reverse_cons, consecPairs_append_singleton] at hp
      rw [List.getLast?_reverse] at hp
      obtain ⟨rest, hrest⟩ := reconstructPath_head pr n q
      rw [hrest] at hp
      simp only [List.head?_cons] at hp
      rcases List.mem_append.mp hp with hp' | hp'
      · rw [← hrest] at hp'
        exact reconstructPath_pairs pr n q p hp'
      · have : p = (q, cur) := by simpa using hp'
        rw [this]
        exact hpr

theorem reconstructPath_ne_nil (pr : String → Option String)
    (fuel : Nat) (cur : String) : reconstructPath pr fuel cur ≠ [] := by
  obtain ⟨rest, hrest⟩ := reconstructPath_head pr fuel cur
  rw [hrest]
  simp

theorem reconstructPath_subset {S : List String} {pr : String → Option String}
    (hpr : ∀ v u, pr v = some u → u ∈ S) :
    ∀ (fuel : Nat) (cur : String), cur ∈ S →
      ∀ x ∈ reconstructPath pr fuel cur, x ∈ S
  | 0, cur, hcur, x, hx => by
    rw [reconstructPath] at hx
    rcases List.mem_singleton.mp hx with rfl
    exact hcur
  | n + 1, cur, hcur, x, hx => by
    rw [reconstructPath] at hx
    cases hpr' : pr cur with
    | none =>
      rw [hpr'] at hx
      rcases List.mem_singleton.mp hx with rfl
      exact hcur
    | some p =>
      rw [hpr'] at hx
      rcases List.mem_cons.mp hx with rfl | hx'
      · exact hcur
      · exact reconstructPath_subset hpr n p (hpr cur p hpr') x hx'

/-- C3: on success, the total duration is the maximum over all tasks of the
cumulative node-weighted distance (`longest_path_len_by_task`, computed by the
source's relaxation in topological order, ignoring edge type and lag); the
maximum is attained at the path's end node, which is the first maximal node
in topological order; every consecutive pair of the reconstructed path is a
direct induced dependency edge; and the distance map covers every task. -/
theorem claim_C3_critical_path_total (task_codes : List String)
    (dependencies : List DepRow) (durations : List (String × ℚ))
    (res : CriticalPathResult)
    (h : critical_path task_codes dependencies durations = .ok res) :
    (∀ pr ∈ res.longest_path_len_by_task, pr.2 ≤ res.total_duration) ∧
    (∃ l1 l2 e, res.longest_path_len_by_task = l1 ++ (e, res.total_duration) :: l2 ∧
      (∀ pr ∈ l1, pr.2 < res.total_duration) ∧
      res.critical_path.getLast? = some e) ∧
    (∀ p ∈ consecPairs res.critical_path,
      p ∈ inducedEdges task_codes dependencies) ∧
    (∀ tc ∈ task_codes, ∃ d, (tc, d) ∈ res.longest_path_len_by_task) := by
  unfold critical_path at h
  cases hts : topologicalSort (dedupKeepFirst task_codes)
      (inducedEdges task_codes dependencies) with
  | none =>
    rw [hts] at h
    cases h
  | some topo =>
    rw [hts] at h
    cases topo with
    | nil => cases h
    | cons hd t =>
      cases h
      unfold cpResult
      dsimp only
      generalize hD : (cpFold (inducedEdges task_codes dependencies) durations
        (hd :: t)).1 = D
      obtain ⟨hmax, l1, l2, hsplit, hlt⟩ := cpEndNode_spec D t hd
      refine ⟨?_, ?_, ?_, ?_⟩
      · intro pr hpr
        obtain ⟨tc, htc, rfl⟩ := List.mem_map.mp hpr
        exact hmax tc htc
      · refine ⟨l1.map (fun tc => (tc, D tc)), l2.map (fun tc => (tc, D tc)),
          cpEndNode D hd t, ?_, ?_, ?_⟩
        · conv_lhs => rw [hsplit]
          rw [List.map_append, List.map_cons]
        · intro pr hpr
          obtain ⟨y, hy, rfl⟩ := List.mem_map.mp hpr
          exact hlt y hy
        · rw [List.getLast?_reverse]
          obtain ⟨rest, hrest⟩ := reconstructPath_head
            ((cpFold (inducedEdges task_codes dependencies) durations (hd :: t)).2)
            ((dedupKeepFirst task_codes).length) (cpEndNode D hd t)
          rw [hrest]
          rfl
      · intro p hp
        have hpred := reconstructPath_pairs
          ((cpFold (inducedEdges task_codes dependencies) durations (hd :: t)).2)
          ((dedupKeepFirst task_codes).length) (cpEndNode D hd t) p hp
        refine cpFold_pred_edge (inducedEdges task_codes dependencies) durations
          (hd :: t) _ ?_ p.2 p.1 hpred
        intro v u hv
        cases hv
      · intro tc htc
        have htopo : tc ∈ hd :: t :=
          (topologicalSort_perm hts).mem_iff.mpr (mem_dedupKeepFirst.mpr htc)
        exact ⟨D tc, List.mem_map.mpr ⟨tc, htopo, rfl⟩⟩

/-- Witness for C3: on the concrete three-task scenario (A→B, A→C with
durations 2/3/1) the distance of "B" is bounded by the total duration 5, via
the theorem. -/
theorem claim_C3_witness :
    (("B", (5 : ℚ)) : String × ℚ).2 ≤
      (⟨["A", "B"], 5, [("A", 2), ("B", 5), ("C", 3)]⟩ :
        CriticalPathResult).total_duration :=
  (claim_C3_critical_path_total ["A", "B", "C"]
    [⟨"A", "B", "FS", none⟩, ⟨"A", "C", "FS", none⟩]
    [("A", 2), ("B", 3), ("C", 1)]
    ⟨["A", "B"], 5, [("A", 2), ("B", 5), ("C", 3)]⟩
    (by
      simp +decide [critical_path, cpResult, cpEndNode, cpFold, cpStep,
        successorsOf, durGet, reconstructPath, topologicalSort, kahnAux,
        hasInRem, inducedEdges, inducedRels, dedupKeepFirst, dedupSeen]
      norm_num)).1
    ("B", 5) (by simp)

/-! ### Claim C10: empty input errors, nonempty acyclic inputs yield a path -/

/-- C10: with an empty `task_codes` list the analyzer fails with the
empty-sequence `max()` error (not an empty path with total 0); on every
nonempty acyclic input it returns a nonempty path drawn from `task_codes`. -/
theorem claim_C10_empty_error_nonempty_path (task_codes : List String)
    (dependencies : List DepRow) (durations : List (String × ℚ)) :
    critical_path [] dependencies durations =
      .error "max() arg is an empty sequence" ∧
    (task_codes ≠ [] → ¬ HasCycle task_codes dependencies →
      ∃ res, critical_path task_codes dependencies durations = .ok res ∧
        res.critical_path ≠ [] ∧ ∀ x ∈ res.critical_path, x ∈ task_codes) := by
  constructor
  · rfl
  · intro hne hacy
    have hcl : ∀ u v, (u, v) ∈ inducedEdges task_codes dependencies →
        u ∈ dedupKeepFirst task_codes ∧ v ∈ dedupKeepFirst task_codes := by
      intro u v huv
      have := mem_of_mem_inducedEdges huv
      exact ⟨mem_dedupKeepFirst.mpr this.1, mem_dedupKeepFirst.mpr this.2⟩
    cases hts : topologicalSort (dedupKeepFirst task_codes)
        (inducedEdges task_codes dependencies) with
    | none => exact absurd (topologicalSort_none_cycle hts) hacy
    | some topo =>
      cases topo with
      | nil =>
        exfalso
        obtain ⟨a, t, rfl⟩ : ∃ a t, task_codes = a :: t := by
          cases task_codes with
          | nil => exact absurd rfl hne
          | cons a t => exact ⟨a, t, rfl⟩
        have : a ∈ ([] : List String) :=
          (topologicalSort_perm hts).symm.mem_iff.mp
            (mem_dedupKeepFirst.mpr (List.mem_cons_self a t))
        cases this
      | cons hd t =>
        refine ⟨cpResult task_codes dependencies durations (hd :: t) hd t,
          ?_, ?_, ?_⟩
        · unfold critical_path
          rw [hts]
        · unfold cpResult
          dsimp only
          simp [reconstructPath_ne_nil]
        · intro x hx
          unfold cpResult at hx
          dsimp only at hx
          rw [List.mem_reverse] at hx
          have hpr : ∀ v u,
              (cpFold (inducedEdges task_codes dependencies) durations (hd :: t)).2
                v = some u → u ∈ task_codes := by
            intro v u hv
            have hedge := cpFold_pred_edge (inducedEdges task_codes dependencies)
              durations (hd :: t) _ (by intro a b hb; cases hb) v u hv
            exact (mem_of_mem_inducedEdges hedge).1
          have hend : cpEndNode
              ((cpFold (inducedEdges task_codes dependencies) durations (hd :: t)).1)
              hd t ∈ task_codes := by
            generalize (cpFold (inducedEdges task_codes dependencies) durations
              (hd :: t)).1 = D
            obtain ⟨_, l1, l2, hsplit, _⟩ := cpEndNode_spec D t hd
            have hmem : cpEndNode D hd t ∈ hd :: t := by
              rw [hsplit]
              exact List.mem_append.mpr (Or.inr (List.mem_cons_self _ _))
            exact mem_dedupKeepFirst.mp ((topologicalSort_perm hts).mem_iff.mp hmem)
          exact reconstructPath_subset hpr _ _ hend x hx

/-- Witness for C10: the nonempty acyclic single-task input yields a
successful result, via the theorem. -/
theorem claim_C10_witness :
    (critical_path ["A"] ([] : List DepRow) ([] : List (String × ℚ))).isOk
      = true := by
  obtain ⟨res, hres, _, _⟩ :=
    (claim_C10_empty_error_nonempty_path ["A"] [] []).2 (by simp)
      (by
        rintro ⟨v, hv⟩
        cases hv with
        | single h => simp [inducedEdges, inducedRels, dedupKeepFirst, dedupSeen] at h
        | tail _ h => simp [inducedEdges, inducedRels, dedupKeepFirst, dedupSeen] at h)
  rw [hres]
  rfl
